import Mathlib

/-!
Verification development for the caret dataset-curation engine.

This file gives a shallow embedding, in Lean 4, of the parts of the
Rust sources that the frozen claims are about:

* `src/engine.rs` — `BitMask`, FNV-1a hashing, SimHash fingerprinting,
  `extract_content_bytes`, and the two-phase `DedupEngine::scan`;
* `src/data.rs`  — line-offset construction and `Dataset::get_line`;
* `src/fixer.rs` — the JSON repair pipeline (`Fixer::fix_line`,
  `fix_value`/`fix_object`/`fix_string`/`fix_think_tags`,
  `find_think_close_position`), together with a model of the
  `serde_json` value type, compact serializer and parser that the
  fixer is built on;
* `src/mcp.rs`   — the JSON-RPC dispatcher and its error mapping.

Machine integers are modelled as `Nat` with explicit `% 2 ^ 64`
where wrap-around matters.  Byte strings of the engine are
`List Nat`; Rust `String`s handled by the fixer are `List Char`
(Rust string positions used by the fixer are starts of ASCII
patterns, so char indices and byte indices name the same splice
points).  Everything is executable: all definitions are plain
structural recursion, so concrete runs reduce by `rfl`/`decide`.
-/

set_option linter.unusedVariables false

-- ═══════════════════════════════════════════════════════════════════
-- § Popcount over 64-bit words
-- ═══════════════════════════════════════════════════════════════════

/-- Population count of the low `fuel` bits of `n`
(models `u64::count_ones` when `fuel = 64` and `n < 2 ^ 64`). -/
def popCountAux : Nat → Nat → Nat
  | 0, _ => 0
  | fuel + 1, n => n % 2 + popCountAux fuel (n / 2)

/-- `u64::count_ones` for a word `w < 2 ^ 64`. -/
def popCount64 (w : Nat) : Nat := popCountAux 64 w

-- ═══════════════════════════════════════════════════════════════════
-- § BitMask (src/engine.rs)
-- ═══════════════════════════════════════════════════════════════════

/-- `BitMask`: 64 line states packed per `u64` word.  `words` holds the
backing vector (each entry a value `< 2 ^ 64`), `len` the number of
tracked positions. -/
structure BitMask where
  words : List Nat
  len : Nat
deriving Repr

namespace BitMask

/-- `BitMask::new`: `(len + 63) / 64` words, all bits cleared. -/
def new (len : Nat) : BitMask :=
  { words := List.replicate ((len + 63) / 64) 0, len := len }

/-- `BitMask::set`: `words[index >> 6] |= 1 << (index & 63)`.
(`index >> 6` is `index / 64`, `index & 63` is `index % 64`,
`1 << b` is `2 ^ b` written with `<<<`.) -/
def set (bm : BitMask) (index : Nat) : BitMask :=
  { bm with
    words := bm.words.set (index / 64)
      (bm.words.getD (index / 64) 0 ||| 1 <<< (index % 64)) }

/-- `BitMask::get`: out-of-range indices read as `false`; in range, the
test `words[index >> 6] & (1 << (index & 63)) != 0` is exactly
`Nat.testBit` of the word at bit `index & 63`. -/
def get (bm : BitMask) (index : Nat) : Bool :=
  if bm.len ≤ index then false
  else Nat.testBit (bm.words.getD (index / 64) 0) (index % 64)

/-- `BitMask::count_ones`: sum of per-word population counts. -/
def count_ones (bm : BitMask) : Nat :=
  (bm.words.map popCount64).sum

end BitMask

-- ═══════════════════════════════════════════════════════════════════
-- § FNV-1a and SimHash (src/engine.rs)
-- ═══════════════════════════════════════════════════════════════════

/-- `SimHasher::fnv1a`: 64-bit FNV-1a over a byte slice, with
`wrapping_mul` modelled by `% 2 ^ 64`. -/
def fnv1a (data : List Nat) : Nat :=
  data.foldl (fun h b => (h ^^^ b) * 0x100000001b3 % 2 ^ 64) 0xcbf29ce484222325

/-- `Fingerprint::hamming_distance`: `popcount(a XOR b)`. -/
def hamming_distance (a b : Nat) : Nat :=
  popCount64 (a ^^^ b)

/-- `Fingerprint::is_near_duplicate`: distance within `threshold`. -/
def is_near_duplicate (a b threshold : Nat) : Bool :=
  hamming_distance a b ≤ threshold

/-- The overlapping `w`-byte windows of `data`
(`slice::windows`; callers guard `w ≤ data.len`). -/
def byteWindows (w : Nat) (data : List Nat) : List (List Nat) :=
  (List.range (data.length - w + 1)).map (fun i => (data.drop i).take w)

/-- `SimHasher::fingerprint`: inputs shorter than the shingle size hash
directly with FNV-1a; otherwise each window votes +1/−1 into 64 signed
accumulators and bit `i` of the output is set iff accumulator `i`
ends positive.  (The Rust accumulators are `i32`; we use `Int`, which
agrees for fewer than `2^31` windows.) -/
def simhashFingerprint (shingle_size : Nat) (data : List Nat) : Nat :=
  if data.length < shingle_size then fnv1a data
  else
    let votes : Nat → Int := fun i =>
      ((byteWindows shingle_size data).map
        (fun win => if Nat.testBit (fnv1a win) i then (1 : Int) else -1)).sum
    ((List.range 64).map (fun i => if 0 < votes i then 2 ^ i else 0)).sum

-- ═══════════════════════════════════════════════════════════════════
-- § Content extraction (src/engine.rs, extract_content_bytes)
-- ═══════════════════════════════════════════════════════════════════

/-- The scanner state of `extract_content_bytes`. -/
structure ExtractState where
  in_string : Bool
  escaped : Bool
  is_value : Bool
  after_colon : Bool
deriving Repr, DecidableEq

/-- Initial state: all flags false. -/
def extractInit : ExtractState :=
  { in_string := false, escaped := false, is_value := false, after_colon := false }

/-- One step of `extract_content_bytes` on byte `b`: the next state and
the bytes pushed to the output.  Byte constants: `\\` = 92, `"` = 34,
`:` = 58, `,` = 44, `}` = 125, `]` = 93, space = 32. -/
def extractStep (st : ExtractState) (b : Nat) : ExtractState × List Nat :=
  if st.escaped then
    ({ st with escaped := false },
     if st.in_string && st.is_value then [b] else [])
  else if b = 92 && st.in_string then
    ({ st with escaped := true }, [])
  else if b = 34 then
    if st.in_string then
      ({ st with in_string := false, is_value := false },
       if st.is_value then [32] else [])
    else
      ({ st with in_string := true, is_value := st.after_colon }, [])
  else if b = 58 && !st.in_string then
    ({ st with after_colon := true }, [])
  else if (b = 44 || b = 125 || b = 93) && !st.in_string then
    ({ st with after_colon := false }, [])
  else if st.in_string && st.is_value then
    (st, [b])
  else
    (st, [])

/-- Run the extractor from a given state. -/
def extractGo (st : ExtractState) : List Nat → List Nat
  | [] => []
  | b :: rest =>
    let p := extractStep st b
    p.2 ++ extractGo p.1 rest

/-- `extract_content_bytes`: string-value content of a JSON line. -/
def extract_content_bytes (data : List Nat) : List Nat :=
  extractGo extractInit data

/-- Final scanner state after consuming `data` from state `st`. -/
def extractFinal (st : ExtractState) (data : List Nat) : ExtractState :=
  data.foldl (fun s b => (extractStep s b).1) st

/-- Instrumented extractor, following the spec's reading of the output:
the list of completed string values (in order) and the pending partial
value if the input ends inside a value string.  The recursion prepends
each pushed byte to the first value completed later, or to the pending
tail when no later close arrives. -/
def extractParts (st : ExtractState) : List Nat → List (List Nat) × List Nat
  | [] => ([], [])
  | b :: rest =>
    let p := extractStep st b
    let tl := extractParts p.1 rest
    if st.in_string && st.is_value && !st.escaped && b = 34 then
      -- closing quote of a value string: seal the current value
      ([] :: tl.1, tl.2)
    else if p.2 = [] then
      tl
    else
      -- a content byte of the current value string
      match tl.1 with
      | v :: vs => ((b :: v) :: vs, tl.2)
      | [] => ([], b :: tl.2)

/-- The spec's shape for extractor output: each value followed by one
space separator (so values are joined by single spaces with one
trailing space). -/
def joinTrailingSpace (vals : List (List Nat)) : List Nat :=
  vals.foldr (fun v acc => v ++ 32 :: acc) []

-- ═══════════════════════════════════════════════════════════════════
-- § Dedup engine (src/engine.rs, DedupEngine::scan)
-- ═══════════════════════════════════════════════════════════════════

/-- `DedupStrategy`. -/
inductive DedupStrategy where
  | Exact : DedupStrategy
  | SimHash (threshold : Nat) : DedupStrategy
deriving Repr, DecidableEq

/-- `DedupResult` (without the wall-clock field, which is not part of
any claim). -/
structure DedupResult where
  duplicates : BitMask
  fingerprints : List Nat
  total_lines : Nat
  unique_count : Nat
  duplicate_count : Nat
  strategy : DedupStrategy
  canonical_map : List Nat
deriving Repr

/-- Association-list lookup modelling `HashMap::get` on the exact-mode
index (keys are inserted only when absent, so they are unique). -/
def alookup (k : Nat) : List (Nat × Nat) → Option Nat
  | [] => none
  | (k', v) :: rest => if k' = k then some v else alookup k rest

/-- Phase 2, exact mode: for each fingerprint in order, look up; on hit
set the duplicate bit and record the canonical index; on miss insert
the first-seen index. -/
def scanExactGo : List Nat → Nat → List (Nat × Nat) → BitMask → List Nat →
    BitMask × List Nat
  | [], _, _, bm, cm => (bm, cm)
  | fp :: rest, i, seen, bm, cm =>
    match alookup fp seen with
    | some j => scanExactGo rest (i + 1) seen (bm.set i) (cm.set i j)
    | none => scanExactGo rest (i + 1) ((fp, i) :: seen) bm cm

/-- Linear scan of the SimHash unique list for the first near match. -/
def findNear (fp threshold : Nat) : List (Nat × Nat) → Option Nat
  | [] => none
  | (j, ufp) :: rest =>
    if is_near_duplicate fp ufp threshold then some j
    else findNear fp threshold rest

/-- Phase 2, SimHash mode: scan the unique list; on the first pair
within the threshold, set the duplicate bit and canonical; otherwise
append `(i, fp)` to the unique list. -/
def scanSimGo (threshold : Nat) : List Nat → Nat → List (Nat × Nat) → BitMask →
    List Nat → BitMask × List Nat
  | [], _, _, bm, cm => (bm, cm)
  | fp :: rest, i, uniq, bm, cm =>
    match findNear fp threshold uniq with
    | some j => scanSimGo threshold rest (i + 1) uniq (bm.set i) (cm.set i j)
    | none => scanSimGo threshold rest (i + 1) (uniq ++ [(i, fp)]) bm cm

/-- Phase 1: per-line fingerprints.  Exact mode hashes the raw bytes;
SimHash mode fingerprints the extracted content.  The engine is built
with `SimHasher::default()`, i.e. shingle size 4. -/
def phase1 (strategy : DedupStrategy) (lines : List (List Nat)) : List Nat :=
  lines.map (fun line =>
    match strategy with
    | .Exact => fnv1a line
    | .SimHash _ => simhashFingerprint 4 (extract_content_bytes line))

/-- `DedupEngine::scan` over the per-line byte contents of a dataset
(the engine reads `dataset.get_line(i).unwrap_or("")`, so a dataset is
presented to the scan as its list of line byte strings). -/
def scan (strategy : DedupStrategy) (lines : List (List Nat)) : DedupResult :=
  let line_count := lines.length
  if line_count = 0 then
    { duplicates := BitMask.new 0, fingerprints := [], total_lines := 0,
      unique_count := 0, duplicate_count := 0, strategy := strategy,
      canonical_map := [] }
  else
    let fingerprints := phase1 strategy lines
    let p :=
      match strategy with
      | .Exact =>
        scanExactGo fingerprints 0 [] (BitMask.new line_count)
          (List.range line_count)
      | .SimHash threshold =>
        scanSimGo threshold fingerprints 0 [] (BitMask.new line_count)
          (List.range line_count)
    let duplicate_count := p.1.count_ones
    { duplicates := p.1, fingerprints := fingerprints,
      total_lines := line_count,
      unique_count := line_count - duplicate_count,
      duplicate_count := duplicate_count, strategy := strategy,
      canonical_map := p.2 }

-- ═══════════════════════════════════════════════════════════════════
-- § Dataset line index (src/data.rs)
-- ═══════════════════════════════════════════════════════════════════

/-- The line-offset vector of `Dataset::open_jsonl`: starts with 0, and
a newline byte (10) at position `p` starts a new record at `p + 1`
only if `p + 1 < len`. -/
def lineOffsets (B : List Nat) : List Nat :=
  0 :: ((List.range B.length).filter
    (fun p => B.getD p 0 = 10 && decide (p + 1 < B.length))).map (· + 1)

/-- `Dataset::line_count`. -/
def lineCount (B : List Nat) : Nat :=
  (lineOffsets B).length

/-- `Dataset::get_line` at the byte level: `None` out of bounds; the
record runs from its offset to one before the next offset (excluding
that newline), or to the end of the buffer for the last record; an
empty range yields the empty record.  (The Rust code additionally
validates the slice as UTF-8, returning `None` for invalid bytes; the
byte content when it returns a string is exactly this slice.) -/
def get_line (B : List Nat) (index : Nat) : Option (List Nat) :=
  let offs := lineOffsets B
  if offs.length ≤ index then none
  else
    let start := offs.getD index 0
    let stop :=
      if index + 1 < offs.length then offs.getD (index + 1) 0 - 1
      else B.length
    let stop := min stop B.length
    if stop ≤ start then some []
    else some ((B.drop start).take (stop - start))

-- ═══════════════════════════════════════════════════════════════════
-- § Character classes (Rust `char` / JSON lexical classes)
-- ═══════════════════════════════════════════════════════════════════

/-- JSON inter-token whitespace accepted by the serde parser:
space, tab, newline, carriage return. -/
def isJsonWs (c : Char) : Bool :=
  c = ' ' || c = '\t' || c = '\n' || c = '\r'

/-- Skip inter-token whitespace. -/
def skipWs (s : List Char) : List Char :=
  s.dropWhile isJsonWs

/-- Rust `char::is_whitespace` (the Unicode White_Space property),
used by `str::trim` / `str::trim_end`. -/
def isRustWs (c : Char) : Bool :=
  c = ' ' || c = '\t' || c = '\n' || c = '\r' ||
  c.toNat = 0x0B || c.toNat = 0x0C || c.toNat = 0x85 || c.toNat = 0xA0 ||
  c.toNat = 0x1680 || (0x2000 ≤ c.toNat && c.toNat ≤ 0x200A) ||
  c.toNat = 0x2028 || c.toNat = 0x2029 || c.toNat = 0x202F ||
  c.toNat = 0x205F || c.toNat = 0x3000

/-- Rust `str::trim_end`. -/
def rtrim (s : List Char) : List Char :=
  (s.reverse.dropWhile isRustWs).reverse

/-- Rust `str::trim` (both ends). -/
def trimBoth (s : List Char) : List Char :=
  rtrim (s.dropWhile isRustWs)

/-- Decimal digit character for `d < 10`. -/
def digitChar (d : Nat) : Char := Char.ofNat (48 + d)

/-- Most-significant-first decimal digits (fuel-driven; `natDigits`
supplies enough fuel for any `n`). -/
def natDigitsAux : Nat → Nat → List Char
  | 0, _ => []
  | fuel + 1, n =>
    if n < 10 then [digitChar n]
    else natDigitsAux fuel (n / 10) ++ [digitChar (n % 10)]

/-- Canonical decimal digits of `n` (as printed by serde's integer
serializer). -/
def natDigits (n : Nat) : List Char := natDigitsAux (n + 1) n

/-- Integer serialization: optional minus sign plus decimal digits. -/
def serNum (n : Int) : List Char :=
  if n < 0 then '-' :: natDigits n.natAbs else natDigits n.toNat

/-- Numeric value of a decimal digit character. -/
def digitVal (c : Char) : Nat := c.toNat - 48

/-- Value of a most-significant-first digit string. -/
def parseNat10 (ds : List Char) : Nat :=
  ds.foldl (fun a c => 10 * a + digitVal c) 0

/-- Lowercase hex digit character for `d < 16` (serde's `\u00XX`
escapes use `0123456789abcdef`). -/
def hexChar (d : Nat) : Char :=
  Char.ofNat (if d < 10 then 48 + d else 87 + d)

/-- Hex digit value, accepting both cases (as the parser does). -/
def hexVal (c : Char) : Option Nat :=
  if 48 ≤ c.toNat && c.toNat ≤ 57 then some (c.toNat - 48)
  else if 97 ≤ c.toNat && c.toNat ≤ 102 then some (c.toNat - 87)
  else if 65 ≤ c.toNat && c.toNat ≤ 70 then some (c.toNat - 55)
  else none

-- ═══════════════════════════════════════════════════════════════════
-- § serde_json value model (src/fixer.rs operates on serde_json::Value)
-- ═══════════════════════════════════════════════════════════════════

mutual
/-- `serde_json::Value`.  Numbers are modelled as integers (the fixer
never rewrites numbers; JSON float literals are outside the modelled
fragment).  Objects keep insertion order; the parser below keeps
duplicate keys instead of overwriting, which agrees with serde on all
inputs whose objects have distinct keys. -/
inductive JValue : Type where
  | null : JValue
  | bool : Bool → JValue
  | num : Int → JValue
  | str : List Char → JValue
  | arr : JArr → JValue
  | obj : JObj → JValue
deriving DecidableEq
/-- Array payload of a `JValue`. -/
inductive JArr : Type where
  | nil : JArr
  | cons : JValue → JArr → JArr
deriving DecidableEq
/-- Object payload of a `JValue`: ordered key/value fields. -/
inductive JObj : Type where
  | nil : JObj
  | cons : List Char → JValue → JObj → JObj
deriving DecidableEq
end

/-- serde's string escaping: `"` and `\` get a backslash, the five
named control escapes are used where they exist, remaining control
characters become `\u00XX`, and everything else is emitted verbatim. -/
def escChar (c : Char) : List Char :=
  if c = '"' then ['\\', '"']
  else if c = '\\' then ['\\', '\\']
  else if c.toNat = 8 then ['\\', 'b']
  else if c.toNat = 9 then ['\\', 't']
  else if c.toNat = 10 then ['\\', 'n']
  else if c.toNat = 12 then ['\\', 'f']
  else if c.toNat = 13 then ['\\', 'r']
  else if c.toNat < 32 then
    ['\\', 'u', '0', '0', hexChar (c.toNat / 16), hexChar (c.toNat % 16)]
  else [c]

/-- Escape a whole string body. -/
def escString (s : List Char) : List Char :=
  s.foldr (fun c acc => escChar c ++ acc) []

mutual
/-- `serde_json::to_string`: compact serialization. -/
def serV : JValue → List Char
  | .null => "null".toList
  | .bool true => "true".toList
  | .bool false => "false".toList
  | .num n => serNum n
  | .str s => '"' :: escString s ++ ['"']
  | .arr a => '[' :: serArrItems a ++ [']']
  | .obj o => '\x7b' :: serObjItems o ++ ['\x7d']
/-- Comma-separated array items. -/
def serArrItems : JArr → List Char
  | .nil => []
  | .cons v .nil => serV v
  | .cons v tl => serV v ++ ',' :: serArrItems tl
/-- Comma-separated `"key":value` members. -/
def serObjItems : JObj → List Char
  | .nil => []
  | .cons k v .nil => '"' :: escString k ++ '"' :: ':' :: serV v
  | .cons k v tl =>
    ('"' :: escString k ++ '"' :: ':' :: serV v) ++ ',' :: serObjItems tl
end

mutual
/-- String-body parser, positioned just after the opening quote.
Returns the decoded characters and the input after the closing quote.
Unescaped control characters are rejected, `\uXXXX` escapes are
decoded with surrogate-pair handling, and lone surrogates fail, as in
serde. -/
def parseStr : List Char → Option (List Char × List Char)
  | [] => none
  | c :: r =>
    if c = '"' then some ([], r)
    else if c = '\\' then parseEsc r
    else if c.toNat < 32 then none
    else (parseStr r).map (fun p => (c :: p.1, p.2))
/-- Decode one escape sequence (the backslash is already consumed). -/
def parseEsc : List Char → Option (List Char × List Char)
  | [] => none
  | e :: r =>
    if e = '"' then (parseStr r).map (fun p => ('"' :: p.1, p.2))
    else if e = '\\' then (parseStr r).map (fun p => ('\\' :: p.1, p.2))
    else if e = '/' then (parseStr r).map (fun p => ('/' :: p.1, p.2))
    else if e = 'b' then (parseStr r).map (fun p => (Char.ofNat 8 :: p.1, p.2))
    else if e = 'f' then (parseStr r).map (fun p => (Char.ofNat 12 :: p.1, p.2))
    else if e = 'n' then (parseStr r).map (fun p => ('\n' :: p.1, p.2))
    else if e = 'r' then (parseStr r).map (fun p => (Char.ofNat 13 :: p.1, p.2))
    else if e = 't' then (parseStr r).map (fun p => ('\t' :: p.1, p.2))
    else if e = 'u' then parseHex r
    else none
/-- Decode the four hex digits of a `\uXXXX` escape. -/
def parseHex : List Char → Option (List Char × List Char)
  | h1 :: h2 :: h3 :: h4 :: r2 =>
    (match hexVal h1, hexVal h2, hexVal h3, hexVal h4 with
     | some a, some b, some c, some d =>
       let n := 4096 * a + 256 * b + 16 * c + d
       if 0xD800 ≤ n ∧ n < 0xDC00 then parseLowSurrogate n r2
       else if 0xDC00 ≤ n ∧ n < 0xE000 then none
       else (parseStr r2).map (fun p => (Char.ofNat n :: p.1, p.2))
     | _, _, _, _ => none)
  | _ => none
/-- After a high surrogate, decode the mandatory `\uXXXX` low
surrogate and combine the pair. -/
def parseLowSurrogate (n : Nat) : List Char → Option (List Char × List Char)
  | e1 :: e2 :: g1 :: g2 :: g3 :: g4 :: r3 =>
    if e1 = '\\' ∧ e2 = 'u' then
      (match hexVal g1, hexVal g2, hexVal g3, hexVal g4 with
       | some a, some b, some c, some d =>
         let m := 4096 * a + 256 * b + 16 * c + d
         if 0xDC00 ≤ m ∧ m < 0xE000 then
           (parseStr r3).map (fun p =>
             (Char.ofNat (0x10000 + (n - 0xD800) * 0x400 + (m - 0xDC00)) ::
               p.1, p.2))
         else none
       | _, _, _, _ => none)
    else none
  | _ => none
end

/-- Unsigned decimal parser for the number grammar: at least one
digit, no redundant leading zero, and no fraction/exponent marker
after the digits (float literals are outside the modelled fragment). -/
def parseUInt (s : List Char) : Option (Nat × List Char) :=
  let ds := s.takeWhile Char.isDigit
  let r := s.dropWhile Char.isDigit
  if ds = [] then none
  else if ds.head? = some '0' && decide (1 < ds.length) then none
  else
    match r with
    | c :: _ =>
      if c = '.' || c = 'e' || c = 'E' then none else some (parseNat10 ds, r)
    | [] => some (parseNat10 ds, [])

/-- JSON number parser (integer fragment): optional minus sign. -/
def parseNumber (s : List Char) : Option (Int × List Char) :=
  match s with
  | '-' :: r => (parseUInt r).map (fun p => (-(p.1 : Int), p.2))
  | _ => (parseUInt s).map (fun p => ((p.1 : Int), p.2))

/-- Expect a fixed sequence of characters, returning the remainder. -/
def stripPfx : List Char → List Char → Option (List Char)
  | [], s => some s
  | _ :: _, [] => none
  | c :: cs, d :: ds => if d = c then stripPfx cs ds else none

/-- Whether an object holds an entry for a key. -/
def jobjHasKey : JObj → List Char → Bool
  | .nil, _ => false
  | .cons k0 _ t, k => k0 = k || jobjHasKey t k

/-- `Map::insert` of serde_json's object map: an existing entry for the
key has its value replaced in place, a new key is appended at the
end. -/
def objInsert : JObj → List Char → JValue → JObj
  | .nil, k, v => .cons k v .nil
  | .cons k0 v0 t, k, v =>
    if k0 = k then .cons k0 v t
    else .cons k0 v0 (objInsert t k v)

/-- Insert a raw member list into an accumulating map, left to right. -/
def buildObj : JObj → JObj → JObj
  | acc, .nil => acc
  | acc, .cons k v t => buildObj (objInsert acc k v) t

/-- What serde_json's object parsing makes of a textual member list:
members are inserted in order, so a duplicated key keeps one entry at
its first position holding the last value. -/
def dedupObj (o : JObj) : JObj := buildObj JObj.nil o

/-- Concatenation of member lists (proof-side helper). -/
def jappend : JObj → JObj → JObj
  | .nil, o => o
  | .cons k v t, o => .cons k v (jappend t o)

mutual
/-- Fuel-driven JSON value parser (the fuel only bounds nesting; the
callers pass more fuel than any input can consume).  Mirrors serde's
grammar on the modelled fragment: leading whitespace, then one of the
literal words, a string, an array, an object, or a number. -/
def parseValue : Nat → List Char → Option (JValue × List Char)
  | 0, _ => none
  | fuel + 1, s =>
    match skipWs s with
    | [] => none
    | c :: r =>
      if c = 'n' then
        (stripPfx ['u', 'l', 'l'] r).map (fun r2 => (JValue.null, r2))
      else if c = 't' then
        (stripPfx ['r', 'u', 'e'] r).map (fun r2 => (JValue.bool true, r2))
      else if c = 'f' then
        (stripPfx ['a', 'l', 's', 'e'] r).map
          (fun r2 => (JValue.bool false, r2))
      else if c = '"' then (parseStr r).map (fun p => (JValue.str p.1, p.2))
      else if c = '[' then
        match skipWs r with
        | [] => none
        | d :: r1 =>
          if d = ']' then some (JValue.arr JArr.nil, r1)
          else
            (parseArrItems fuel (d :: r1)).map
              (fun p => (JValue.arr p.1, p.2))
      else if c = '\x7b' then
        match skipWs r with
        | [] => none
        | d :: r1 =>
          if d = '\x7d' then some (JValue.obj JObj.nil, r1)
          else
            (parseObjItems fuel (d :: r1)).map
              (fun p => (JValue.obj (dedupObj p.1), p.2))
      else if c = '-' || c.isDigit then
        (parseNumber (c :: r)).map (fun p => (JValue.num p.1, p.2))
      else none
/-- One-or-more comma-separated array items, consuming the closing
bracket. -/
def parseArrItems : Nat → List Char → Option (JArr × List Char)
  | 0, _ => none
  | fuel + 1, s =>
    match parseValue fuel s with
    | none => none
    | some (v, r) =>
      match skipWs r with
      | [] => none
      | d :: r2 =>
        if d = ',' then
          (parseArrItems fuel r2).map (fun p => (JArr.cons v p.1, p.2))
        else if d = ']' then some (JArr.cons v JArr.nil, r2)
        else none
/-- One-or-more comma-separated object members, consuming the closing
brace. -/
def parseObjItems : Nat → List Char → Option (JObj × List Char)
  | 0, _ => none
  | fuel + 1, s =>
    match skipWs s with
    | [] => none
    | c :: r =>
      if c = '"' then
        match parseStr r with
        | none => none
        | some (k, r2) =>
          match skipWs r2 with
          | [] => none
          | d :: r3 =>
            if d = ':' then
              match parseValue fuel r3 with
              | none => none
              | some (v, r4) =>
                match skipWs r4 with
                | [] => none
                | e :: r5 =>
                  if e = ',' then
                    (parseObjItems fuel r5).map
                      (fun p => (JObj.cons k v p.1, p.2))
                  else if e = '\x7d' then
                    some (JObj.cons k v JObj.nil, r5)
                  else none
            else none
      else none
end

/-- `serde_json::from_str` on the modelled fragment: parse one value,
then require only trailing whitespace.  The fuel `length + 1` exceeds
any possible nesting depth of the input.  (serde's fixed recursion
limit of 128 is not modelled.) -/
def parseJson (s : List Char) : Option JValue :=
  match parseValue (s.length + 1) s with
  | some (v, r) => if skipWs r = [] then some v else none
  | none => none

mutual
/-- Nesting budget a value needs from `parseValue`. -/
def needV : JValue → Nat
  | .null => 1
  | .bool _ => 1
  | .num _ => 1
  | .str _ => 1
  | .arr a => 1 + needA a
  | .obj o => 1 + needO o
/-- Nesting budget of an item list for `parseArrItems`. -/
def needA : JArr → Nat
  | .nil => 0
  | .cons v t => 1 + max (needV v) (needA t)
/-- Nesting budget of a member list for `parseObjItems`. -/
def needO : JObj → Nat
  | .nil => 0
  | .cons _ v t => 1 + max (needV v) (needO t)
end

mutual
/-- No object anywhere inside the value repeats a key.  This is the
range of serde_json's parser: its map insertion collapses duplicate
keys, so every parsed value satisfies it. -/
def keysOkV : JValue → Bool
  | .arr a => keysOkA a
  | .obj o => keysOkO o
  | _ => true
/-- Key discipline for every item of an array. -/
def keysOkA : JArr → Bool
  | .nil => true
  | .cons v t => keysOkV v && keysOkA t
/-- Key discipline for an object: pairwise-distinct keys, recursively
clean values. -/
def keysOkO : JObj → Bool
  | .nil => true
  | .cons k v t => !jobjHasKey t k && keysOkV v && keysOkO t
end

-- ═══════════════════════════════════════════════════════════════════
-- § Fixer (src/fixer.rs)
-- ═══════════════════════════════════════════════════════════════════

/-- `FixType`. -/
inductive FixType where
  | AddedClosingThinkTag : FixType
  | AddedOpeningThinkTag : FixType
  | RemovedTrailingWhitespace : FixType
  | TrimmedWhitespaceBeforeNewlines : FixType
deriving DecidableEq, Repr

/-- `SkipReason` (the serde error text carried by `InvalidJson` is not
modelled). -/
inductive SkipReason where
  | InvalidJson : SkipReason
  | EmptyLine : SkipReason
deriving DecidableEq, Repr

/-- `FixResult`. -/
inductive FixResult where
  | Fixed (line : List Char) (fixes : List FixType) : FixResult
  | Unchanged (line : List Char) : FixResult
  | Skipped (reason : SkipReason) : FixResult
deriving DecidableEq, Repr

/-- `if !fixes.contains(&ft) { fixes.push(ft) }`. -/
def pushIfNew (fixes : List FixType) (ft : FixType) : List FixType :=
  if ft ∈ fixes then fixes else fixes ++ [ft]

/-- Whether the regex `" +\n"` matches somewhere in `s` (it does iff
some space is immediately followed by a newline). -/
def hasSpaceNewline : List Char → Bool
  | [] => false
  | ' ' :: '\n' :: _ => true
  | _ :: rest => hasSpaceNewline rest

/-- `whitespace_before_newline.replace_all(s, "\n")` for the pattern
`" +\n"`: each maximal run of spaces directly before a newline is
replaced by that newline.  `k` counts spaces whose fate is pending. -/
def collapseSpacesAux : Nat → List Char → List Char
  | k, [] => List.replicate k ' '
  | k, c :: rest =>
    if c = ' ' then collapseSpacesAux (k + 1) rest
    else if c = '\n' then '\n' :: collapseSpacesAux 0 rest
    else List.replicate k ' ' ++ c :: collapseSpacesAux 0 rest

/-- Replace every space run before a newline with the newline. -/
def collapseSpacesBeforeNewlines (s : List Char) : List Char :=
  collapseSpacesAux 0 s

/-- `Fixer::fix_string`: right-trim (recorded when the length shrank),
then collapse whitespace before newlines (recorded when the regex
matched). -/
def fixStringF (s : List Char) (fixes : List FixType) :
    List Char × List FixType :=
  let t := rtrim s
  let p1 : List Char × List FixType :=
    if t.length < s.length then (t, pushIfNew fixes .RemovedTrailingWhitespace)
    else (s, fixes)
  if hasSpaceNewline p1.1 then
    (collapseSpacesBeforeNewlines p1.1,
     pushIfNew p1.2 .TrimmedWhitespaceBeforeNewlines)
  else p1

/-- The opening reasoning marker, `<think>` (7 characters). -/
def thinkOpen : List Char := ['<', 't', 'h', 'i', 'n', 'k', '>']

/-- The closing reasoning marker, `</think>` (8 characters). -/
def thinkClose : List Char := ['<', '/', 't', 'h', 'i', 'n', 'k', '>']

/-- All start positions of occurrences of `pat` in `s`, ascending. -/
def subPositions (pat s : List Char) : List Nat :=
  (List.range s.length).filter (fun i => pat.isPrefixOf (s.drop i))

/-- `Regex::find_iter(..).count()` for the literal marker patterns
(they cannot self-overlap, so this is the number of occurrence
positions). -/
def countSub (pat s : List Char) : Nat :=
  (subPositions pat s).length

/-- `str::rfind` for a literal pattern. -/
def rfindSub (pat s : List Char) : Option Nat :=
  (subPositions pat s).getLast?

/-- `str::contains` for a literal pattern. -/
def containsSub (pat s : List Char) : Bool :=
  !(subPositions pat s).isEmpty

/-- `str::find` for a literal pattern. -/
def findSub (pat s : List Char) : Option Nat :=
  (subPositions pat s).head?

/-- `String::insert_str`. -/
def insertAt (pos : Nat) (t s : List Char) : List Char :=
  s.take pos ++ t ++ s.drop pos

/-- `find_think_close_position`: first double newline, else end of
content. -/
def find_think_close_position (content : List Char) : Nat :=
  match findSub ['\n', '\n'] content with
  | some pos => pos
  | none => content.length

/-- One iteration of the missing-closing-tag loop: find the last
`<think>`; if no `</think>` follows it, insert one at the close
position of the content after it (7 = length of `<think>`). -/
def addCloseStep (s : List Char) (fixes : List FixType) :
    List Char × List FixType :=
  match rfindSub thinkOpen s with
  | none => (s, fixes)
  | some p =>
    if containsSub thinkClose (s.drop p) then (s, fixes)
    else
      let close_pos := find_think_close_position (s.drop (p + 7))
      (insertAt (p + 7 + close_pos) thinkClose s,
       pushIfNew fixes .AddedClosingThinkTag)

/-- The `for _ in 0..(open_count - close_count)` loop of
`fix_think_tags`. -/
def addCloseLoop : Nat → List Char → List FixType → List Char × List FixType
  | 0, s, fixes => (s, fixes)
  | n + 1, s, fixes =>
    let p := addCloseStep s fixes
    addCloseLoop n p.1 p.2

/-- The `for _ in 0..(close_count - open_count)` loop: prepend one
`<think>` per iteration. -/
def prependOpenLoop : Nat → List Char → List FixType → List Char × List FixType
  | 0, s, fixes => (s, fixes)
  | n + 1, s, fixes =>
    prependOpenLoop n (thinkOpen ++ s) (pushIfNew fixes .AddedOpeningThinkTag)

/-- `Fixer::fix_think_tags`: compare open/close counts and run the
corresponding loop. -/
def fixThinkTags (s : List Char) (fixes : List FixType) :
    List Char × List FixType :=
  let open_count := countSub thinkOpen s
  let close_count := countSub thinkClose s
  if close_count < open_count then
    addCloseLoop (open_count - close_count) s fixes
  else if open_count < close_count then
    prependOpenLoop (close_count - open_count) s fixes
  else (s, fixes)

/-- `serde_json::Map::get`. -/
def jGetField (key : List Char) : JObj → Option JValue
  | .nil => none
  | .cons k v t => if k = key then some v else jGetField key t

/-- `Value::as_str`. -/
def jAsStr : JValue → Option (List Char)
  | .str s => some s
  | _ => none

/-- The `"role"` key. -/
def roleKey : List Char := ['r', 'o', 'l', 'e']

/-- The `"content"` key. -/
def contentKey : List Char := ['c', 'o', 'n', 't', 'e', 'n', 't']

/-- The `"assistant"` role string. -/
def assistantStr : List Char :=
  ['a', 's', 's', 'i', 's', 't', 'a', 'n', 't']

mutual
/-- `Fixer::fix_value`: strings get the whitespace fixes, arrays and
objects recurse, other scalars are untouched.  For objects the
`role == "assistant"` flag is computed from the object *before* any
of its fields are fixed, as in the source. -/
def fixValue : JValue → List FixType → JValue × List FixType
  | .str s, fixes =>
    let p := fixStringF s fixes
    (.str p.1, p.2)
  | .arr a, fixes =>
    let p := fixArrItems a fixes
    (.arr p.1, p.2)
  | .obj o, fixes =>
    let is_assistant : Bool := (jGetField roleKey o).bind jAsStr == some assistantStr
    let p := fixObjFields is_assistant o fixes
    (.obj p.1, p.2)
  | v, fixes => (v, fixes)
/-- Fix each array item in order. -/
def fixArrItems : JArr → List FixType → JArr × List FixType
  | .nil, fixes => (.nil, fixes)
  | .cons v t, fixes =>
    let p := fixValue v fixes
    let q := fixArrItems t p.2
    (.cons p.1 q.1, q.2)
/-- `Fixer::fix_object`'s field loop: on an assistant object the
string `content` field additionally gets the think-tag fix (a
non-string `content` field of an assistant object is left untouched);
every other field recurses through `fix_value`. -/
def fixObjFields : Bool → JObj → List FixType → JObj × List FixType
  | _, .nil, fixes => (.nil, fixes)
  | is_assistant, .cons k v t, fixes =>
    if is_assistant && k == contentKey then
      match v with
      | .str s =>
        let p1 := fixStringF s fixes
        let p2 := fixThinkTags p1.1 p1.2
        let q := fixObjFields is_assistant t p2.2
        (.cons k (.str p2.1) q.1, q.2)
      | _ =>
        let q := fixObjFields is_assistant t fixes
        (.cons k v q.1, q.2)
    else
      let p := fixValue v fixes
      let q := fixObjFields is_assistant t p.2
      (.cons k p.1 q.1, q.2)
end

/-- `Fixer::fix_line`: trim, skip empty, parse (skip unparseable), fix
the value tree, re-serialize compactly, report `Unchanged` when no fix
kind was recorded and `Fixed` otherwise. -/
def fix_line (line : List Char) : FixResult :=
  let trimmed := trimBoth line
  if trimmed = [] then .Skipped .EmptyLine
  else
    match parseJson trimmed with
    | none => .Skipped .InvalidJson
    | some v =>
      let p := fixValue v []
      let fixed_line := serV p.1
      if p.2 = [] then .Unchanged fixed_line
      else .Fixed fixed_line p.2

-- ═══════════════════════════════════════════════════════════════════
-- § JSON-RPC / MCP server (src/mcp.rs)
-- ═══════════════════════════════════════════════════════════════════

/-- `JsonRpcError` (the optional `data` field is always `None` in the
source and is omitted). -/
structure JsonRpcErrorM where
  code : Int
  message : List Char
deriving DecidableEq

/-- `JsonRpcResponse`. -/
structure JsonRpcResponseM where
  id : Option JValue
  result : Option JValue
  error : Option JsonRpcErrorM
deriving DecidableEq

/-- `JsonRpcRequest` (the `jsonrpc` version tag is carried but never
inspected by the dispatcher). -/
structure McpRequest where
  jsonrpc : List Char
  id : Option JValue
  method : List Char
  params : JValue

/-- `JsonRpcResponse::success`. -/
def rpcSuccess (id : Option JValue) (result : JValue) : JsonRpcResponseM :=
  { id := id, result := some result, error := none }

/-- `JsonRpcResponse::error`. -/
def rpcError (id : Option JValue) (code : Int) (message : List Char) :
    JsonRpcResponseM :=
  { id := id, result := none, error := some { code := code, message := message } }

/-- `serde_json::Value::get` by key (objects only). -/
def jGet (v : JValue) (key : List Char) : Option JValue :=
  match v with
  | .obj o => jGetField key o
  | _ => none

/-- `Value::as_u64`: non-negative integers only. -/
def jAsU64 : JValue → Option Nat
  | .num n => if 0 ≤ n then some n.toNat else none
  | _ => none

/-- Helper: a `{type: "text", text: ...}` content block. -/
def contentBlockJson (text : List Char) : JValue :=
  .obj (.cons ("type".toList) (.str ("text".toList))
    (.cons ("text".toList) (.str text) .nil))

/-- The context block built by `search_dataset_impl` when
`context_lines > 0`: one `"{marker} L{n}: {line}\n"` row per
surrounding line. -/
def ctxBlock (ds : List (List Char)) (i ctx : Nat) : List Char :=
  let n := ds.length
  let start := i - ctx
  let stop := min (i + ctx + 1) n
  ((List.range' start (stop - start)).map (fun j =>
    (if j = i then ">>>".toList else "   ".toList) ++
      (" L".toList ++ natDigits (j + 1) ++ ": ".toList ++ ds.getD j [] ++ ['\n']))).foldr
    (· ++ ·) []

/-- The match-collection loop of `search_dataset_impl`: scan lines in
order, stop once `max_results` matches are collected, attach the
context block when `context_lines > 0`. -/
def searchGo (re : List Char → Bool) (ds : List (List Char))
    (max_results context_lines : Nat) :
    List (Nat × List Char) → Nat → List (Nat × List Char)
  | [], _ => []
  | (i, line) :: rest, found =>
    if max_results ≤ found then []
    else if re line then
      (i, if 0 < context_lines then ctxBlock ds i context_lines else line) ::
        searchGo re ds max_results context_lines rest (found + 1)
    else searchGo re ds max_results context_lines rest found

/-- `search_dataset_impl`, parameterized by the external regex engine:
`compile` returns a matcher, or `none` when the pattern does not
compile (`regex::Regex::new(pattern)?`). -/
def search_dataset_impl (compile : List Char → Option (List Char → Bool))
    (ds : List (List Char)) (pattern : List Char)
    (max_results context_lines : Nat) : Option (List (Nat × List Char)) :=
  match compile pattern with
  | none => none
  | some re => some (searchGo re ds max_results context_lines ds.enum 0)

/-- The response text of a successful search (modelled up to the exact
punctuation of the `format!` strings, which no claim depends on). -/
def searchText (query : List Char) (ms : List (Nat × List Char))
    (total : Nat) : List Char :=
  if ms.isEmpty then "No matches found for pattern: ".toList ++ query
  else
    ("Found ".toList ++ natDigits ms.length ++ " match(es) for ".toList ++
      query ++ " in ".toList ++ natDigits total ++ " lines:\n\n".toList) ++
    (ms.map (fun m => "L".toList ++ natDigits (m.1 + 1) ++ ": ".toList ++ m.2)).foldr
      (fun a b => if b = [] then a else a ++ '\n' :: b) []

/-- `tool_search_dataset`: missing (or non-string) `query` is a
−32602 error; a pattern the regex engine rejects is a −32603 error;
otherwise a success response with one text content block. -/
def tool_search_dataset (compile : List Char → Option (List Char → Bool))
    (ds : List (List Char)) (id : Option JValue) (args : JValue) :
    JsonRpcResponseM :=
  match (jGet args ("query".toList)).bind jAsStr with
  | none => rpcError id (-32602) ("Missing required parameter: query".toList)
  | some query =>
    let max_results := ((jGet args ("max_results".toList)).bind jAsU64).getD 50
    let context_lines := ((jGet args ("context_lines".toList)).bind jAsU64).getD 0
    match search_dataset_impl compile ds query max_results context_lines with
    | none => rpcError id (-32603) ("Search error: regex".toList)
    | some ms =>
      rpcSuccess id (.obj (.cons ("content".toList)
        (.arr (.cons (contentBlockJson (searchText query ms ds.length)) .nil))
        .nil))

/-- `tool_dataset_info` (display strings abbreviated; not involved in
any claim). -/
def tool_dataset_info (ds : List (List Char)) (dataset_path : List Char)
    (id : Option JValue) : JsonRpcResponseM :=
  rpcSuccess id (.obj (.cons ("content".toList)
    (.arr (.cons (contentBlockJson
      ("Dataset: ".toList ++ dataset_path ++ "\nLines: ".toList ++
        natDigits ds.length)) .nil))
    (.cons ("metadata".toList)
      (.obj (.cons ("line_count".toList) (.num ds.length) .nil)) .nil)))

/-- `tool_get_lines`: `start` defaults to 0, `count` defaults to 10 and
is capped at 500; lines are rendered `L{n}: {line}`. -/
def tool_get_lines (ds : List (List Char)) (id : Option JValue)
    (args : JValue) : JsonRpcResponseM :=
  let start := ((jGet args ("start".toList)).bind jAsU64).getD 0
  let count := min (((jGet args ("count".toList)).bind jAsU64).getD 10) 500
  let stop := min (start + count) ds.length
  let lines := (List.range' start (stop - start)).map (fun i =>
    "L".toList ++ natDigits (i + 1) ++ ": ".toList ++ ds.getD i [])
  let text :=
    if lines.isEmpty then "No lines found at index ".toList ++ natDigits start
    else lines.foldr (fun a b => if b = [] then a else a ++ '\n' :: b) []
  rpcSuccess id (.obj (.cons ("content".toList)
    (.arr (.cons (contentBlockJson text) .nil)) .nil))

/-- `tool_dedup_scan`: `"exact"` selects the exact strategy, anything
else SimHash with the requested threshold (default 3); the engine runs
over the line bytes (char code points stand in for bytes, which agree
on ASCII data). -/
def tool_dedup_scan (ds : List (List Char)) (id : Option JValue)
    (args : JValue) : JsonRpcResponseM :=
  let strategy_str := ((jGet args ("strategy".toList)).bind jAsStr).getD
    ("simhash".toList)
  let threshold := ((jGet args ("threshold".toList)).bind jAsU64).getD 3
  let strategy := if strategy_str = "exact".toList then DedupStrategy.Exact
    else DedupStrategy.SimHash threshold
  let dr := scan strategy (ds.map (fun l => l.map Char.toNat))
  rpcSuccess id (.obj (.cons ("content".toList)
    (.arr (.cons (contentBlockJson
      ("Dedup Scan Results: ".toList ++ natDigits dr.total_lines ++
        " total, ".toList ++ natDigits dr.unique_count ++
        " unique, ".toList ++ natDigits dr.duplicate_count ++
        " duplicates".toList)) .nil))
    (.cons ("metadata".toList)
      (.obj (.cons ("total_lines".toList) (.num dr.total_lines)
        (.cons ("unique_count".toList) (.num dr.unique_count)
          (.cons ("duplicate_count".toList) (.num dr.duplicate_count) .nil))))
      .nil)))

/-- `handle_tools_call`: dispatch on `params.name` (default `""`),
with `params.arguments` defaulting to the empty object; an unknown
tool name is a −32602 error. -/
def handle_tools_call (compile : List Char → Option (List Char → Bool))
    (ds : List (List Char)) (dataset_path : List Char) (id : Option JValue)
    (params : JValue) : JsonRpcResponseM :=
  let tool_name := ((jGet params ("name".toList)).bind jAsStr).getD []
  let arguments := (jGet params ("arguments".toList)).getD (.obj .nil)
  if tool_name = "search_dataset".toList then
    tool_search_dataset compile ds id arguments
  else if tool_name = "dataset_info".toList then
    tool_dataset_info ds dataset_path id
  else if tool_name = "get_lines".toList then
    tool_get_lines ds id arguments
  else if tool_name = "dedup_scan".toList then
    tool_dedup_scan ds id arguments
  else
    rpcError id (-32602) ("Unknown tool: ".toList ++ tool_name)

/-- `handle_initialize` (capability payload abbreviated; the crate
version string comes from the build environment and is not in src/). -/
def handle_initialize (id : Option JValue) : JsonRpcResponseM :=
  rpcSuccess id (.obj (.cons ("protocolVersion".toList)
    (.str ("2024-11-05".toList))
    (.cons ("serverInfo".toList)
      (.obj (.cons ("name".toList) (.str ("caret".toList)) .nil)) .nil)))

/-- `handle_tools_list` (descriptor payload abbreviated to the tool
names; not involved in any claim). -/
def handle_tools_list (id : Option JValue) : JsonRpcResponseM :=
  rpcSuccess id (.obj (.cons ("tools".toList)
    (.arr (.cons (.str ("search_dataset".toList))
      (.cons (.str ("dataset_info".toList))
        (.cons (.str ("get_lines".toList))
          (.cons (.str ("dedup_scan".toList)) .nil))))) .nil))

/-- `handle_resources_list` (payload abbreviated). -/
def handle_resources_list (dataset_path : List Char) (id : Option JValue) :
    JsonRpcResponseM :=
  rpcSuccess id (.obj (.cons ("resources".toList)
    (.arr (.cons (.str ("caret://dataset/".toList ++ dataset_path)) .nil))
    .nil))

/-- `handle_resources_read`: first 100 lines joined by newlines. -/
def handle_resources_read (ds : List (List Char)) (dataset_path : List Char)
    (id : Option JValue) (params : JValue) : JsonRpcResponseM :=
  let preview := (ds.take 100).foldr
    (fun a b => if b = [] then a else a ++ '\n' :: b) []
  rpcSuccess id (.obj (.cons ("contents".toList)
    (.arr (.cons (.obj (.cons ("uri".toList)
      (.str ("caret://dataset/".toList ++ dataset_path))
      (.cons ("text".toList) (.str preview) .nil))) .nil)) .nil))

/-- `handle_jsonrpc`: dispatch on the method name; an unrecognized
method is a −32601 error.  Every branch returns a response value — the
dispatcher never escapes with an error. -/
def handle_jsonrpc (compile : List Char → Option (List Char → Bool))
    (ds : List (List Char)) (dataset_path : List Char) (req : McpRequest) :
    JsonRpcResponseM :=
  if req.method = "initialize".toList then handle_initialize req.id
  else if req.method = "initialized".toList then
    rpcSuccess req.id (.obj .nil)
  else if req.method = "tools/list".toList then handle_tools_list req.id
  else if req.method = "tools/call".toList then
    handle_tools_call compile ds dataset_path req.id req.params
  else if req.method = "resources/list".toList then
    handle_resources_list dataset_path req.id
  else if req.method = "resources/read".toList then
    handle_resources_read ds dataset_path req.id req.params
  else
    rpcError req.id (-32601) ("Method not found: ".toList ++ req.method)

-- ═══════════════════════════════════════════════════════════════════
-- § Concrete instances used by the claims
-- ═══════════════════════════════════════════════════════════════════

/-- Scenario 1 of the spec: the records `A`, `B`, `A`, `C`, `B`. -/
def dsABACB : List (List Nat) := [[65], [66], [65], [67], [66]]

/-- A line whose assistant object carries `role` `"assistant "` (note
the trailing space) and an unterminated think tag in `content`. -/
def c3Input : List Char :=
  "\x7b\"role\":\"assistant \",\"content\":\"<think>abc\"\x7d".toList

/-- The first repair of `c3Input`: the role string is trimmed, but the
think tag is untouched because the pre-fix role was not `"assistant"`. -/
def c3Once : List Char :=
  "\x7b\"role\":\"assistant\",\"content\":\"<think>abc\"\x7d".toList

/-- The second repair: now the role matches and the closing tag is
inserted, so the output changes again. -/
def c3Twice : List Char :=
  "\x7b\"role\":\"assistant\",\"content\":\"<think>abc</think>\"\x7d".toList

/-- An assistant content string with two unclosed `<think>` openers,
the first followed by a double newline. -/
def c5Content : List Char := "<think>a\n\n<think>b".toList

/-- What the code actually produces for `c5Content`: a single
`</think>` appended at end-of-string. -/
def c5Result : List Char := "<think>a\n\n<think>b</think>".toList

-- ═══════════════════════════════════════════════════════════════════
-- § Theorems
-- ═══════════════════════════════════════════════════════════════════

/-- C1: running the exact-strategy dedup scan over the five records
`A`, `B`, `A`, `C`, `B` flags exactly records 2 and 4 as duplicates
(0-based bits of the bitmap), produces the canonical map
`[0, 1, 0, 3, 1]`, and reports 3 unique records. -/
theorem c1_exact_scan_small_corpus :
    (scan .Exact dsABACB).duplicates.get 0 = false ∧
    (scan .Exact dsABACB).duplicates.get 1 = false ∧
    (scan .Exact dsABACB).duplicates.get 2 = true ∧
    (scan .Exact dsABACB).duplicates.get 3 = false ∧
    (scan .Exact dsABACB).duplicates.get 4 = true ∧
    (scan .Exact dsABACB).canonical_map = [0, 1, 0, 3, 1] ∧
    (scan .Exact dsABACB).unique_count = 3 := by
  decide

/-- C3 (code bug): repair is not idempotent.  On
`{"role":"assistant ","content":"<think>abc"}` the first repair only
trims the role string (the think-tag rule does not fire because
`is_assistant` is computed from the not-yet-trimmed role), and the
second repair — now seeing `role == "assistant"` — inserts the missing
`</think>`, returning `Fixed` with different bytes instead of
`Unchanged`. -/
theorem c3_repair_not_idempotent :
    fix_line c3Input = .Fixed c3Once [.RemovedTrailingWhitespace] ∧
    fix_line c3Once = .Fixed c3Twice [.AddedClosingThinkTag] ∧
    c3Twice ≠ c3Once := by
  refine ⟨by decide, by decide, by decide⟩

/-- C4 (counterexample): an `Unchanged` outcome does not carry the
original line's bytes.  The parseable line `[1, 2]` has no applicable
fix rule, yet repair returns `Unchanged` with the re-serialized bytes
`[1,2]`, which differ from the input. -/
theorem c4_unchanged_not_original_bytes :
    fix_line ("[1, 2]".toList) = .Unchanged ("[1,2]".toList) ∧
    "[1,2]".toList ≠ "[1, 2]".toList := by
  refine ⟨by decide, by decide⟩

/-- C5 (code bug): with two excess openers, repair does not insert one
closing marker per excess opener.  On `<think>a\n\n<think>b` the loop
runs twice but both iterations locate the *last* opener (`rfind`), so
only a single `</think>` is inserted — at end-of-string — and the
result still has 2 openers against 1 closer instead of the balanced
`<think>a</think>\n\n<think>b</think>`. -/
theorem c5_single_marker_inserted :
    countSub thinkOpen c5Content = 2 ∧
    countSub thinkClose c5Content = 0 ∧
    fixThinkTags c5Content [] = (c5Result, [.AddedClosingThinkTag]) ∧
    countSub thinkOpen c5Result = 2 ∧
    countSub thinkClose c5Result = 1 ∧
    countSub thinkOpen (fixThinkTags c5Content []).1 ≠
      countSub thinkClose (fixThinkTags c5Content []).1 := by
  refine ⟨by decide, by decide, by decide, by decide, by decide, by decide⟩

/-- C6 (counterexample): a source that is exactly one newline byte
does not yield two records — `line_count()` is 1, and the single
record is the newline itself rather than an empty record. -/
theorem c6_single_newline_not_two_records :
    lineCount [10] ≠ 2 ∧ get_line [10] 0 = some [10] := by
  refine ⟨by decide, by decide⟩

/-- C6 (amended): over an empty source the dataset has one record and
it is empty; over a source that is exactly one newline byte it has one
record, namely the newline byte itself (the offset builder only starts
a new record at `p + 1` when `p + 1 < len`, and the last record runs
to the end of the buffer). -/
theorem c6_edge_records :
    lineCount [] = 1 ∧ get_line [] 0 = some [] ∧
    lineCount [10] = 1 ∧ get_line [10] 0 = some [10] := by
  refine ⟨by decide, by decide, by decide, by decide⟩

/-- C7 (counterexample): the content returned by `get_line` can end
with the newline byte.  Over the two-byte source `a\n` the single
(last) record is `[97, 10]`, which ends with the newline. -/
theorem c7_last_record_keeps_newline :
    get_line [97, 10] 0 = some [97, 10] ∧
    ([97, 10] : List Nat).getLast? = some 10 ∧
    0 < lineCount [97, 10] := by
  refine ⟨by decide, by decide, by decide⟩

/-- C8: the JSON-RPC dispatcher maps failures to error codes exactly
as specified, for every regex engine, dataset and request: an
unrecognized method name yields −32601; a `tools/call` with an unknown
tool name, or with the required `query` parameter missing from the
`search_dataset` arguments, yields −32602; a pattern the regex engine
fails to compile yields −32603; and in every such case the dispatcher
returns an error response (it is a total function into responses —
it never terminates the server). -/
theorem c8_error_mapping
    (compile : List Char → Option (List Char → Bool))
    (ds : List (List Char)) (path : List Char) :
    (∀ req : McpRequest,
      req.method ≠ "initialize".toList →
      req.method ≠ "initialized".toList →
      req.method ≠ "tools/list".toList →
      req.method ≠ "tools/call".toList →
      req.method ≠ "resources/list".toList →
      req.method ≠ "resources/read".toList →
      ∃ e, (handle_jsonrpc compile ds path req).error = some e ∧
        e.code = -32601) ∧
    (∀ req : McpRequest, req.method = "tools/call".toList →
      ((jGet req.params ("name".toList)).bind jAsStr).getD [] ≠
        "search_dataset".toList →
      ((jGet req.params ("name".toList)).bind jAsStr).getD [] ≠
        "dataset_info".toList →
      ((jGet req.params ("name".toList)).bind jAsStr).getD [] ≠
        "get_lines".toList →
      ((jGet req.params ("name".toList)).bind jAsStr).getD [] ≠
        "dedup_scan".toList →
      ∃ e, (handle_jsonrpc compile ds path req).error = some e ∧
        e.code = -32602) ∧
    (∀ req : McpRequest, req.method = "tools/call".toList →
      ((jGet req.params ("name".toList)).bind jAsStr).getD [] =
        "search_dataset".toList →
      (jGet ((jGet req.params ("arguments".toList)).getD (.obj .nil))
        ("query".toList)).bind jAsStr = none →
      ∃ e, (handle_jsonrpc compile ds path req).error = some e ∧
        e.code = -32602) ∧
    (∀ req : McpRequest, ∀ q : List Char, req.method = "tools/call".toList →
      ((jGet req.params ("name".toList)).bind jAsStr).getD [] =
        "search_dataset".toList →
      (jGet ((jGet req.params ("arguments".toList)).getD (.obj .nil))
        ("query".toList)).bind jAsStr = some q →
      compile q = none →
      ∃ e, (handle_jsonrpc compile ds path req).error = some e ∧
        e.code = -32603) := by
  refine ⟨?_, ?_, ?_, ?_⟩
  · intro req h1 h2 h3 h4 h5 h6
    simp only [handle_jsonrpc, if_neg h1, if_neg h2, if_neg h3, if_neg h4,
      if_neg h5, if_neg h6, rpcError]
    exact ⟨_, rfl, rfl⟩
  · intro req hm ht1 ht2 ht3 ht4
    simp only [handle_jsonrpc, hm, if_neg, if_pos]
    have : ¬("tools/call".toList = "initialize".toList) := by decide
    simp only [if_neg this]
    have : ¬("tools/call".toList = "initialized".toList) := by decide
    simp only [if_neg this]
    have : ¬("tools/call".toList = "tools/list".toList) := by decide
    simp only [if_neg this, if_pos rfl, handle_tools_call,
      if_neg ht1, if_neg ht2, if_neg ht3, if_neg ht4, rpcError]
    exact ⟨_, rfl, rfl⟩
  · intro req hm ht hq
    simp only [handle_jsonrpc, hm]
    have : ¬("tools/call".toList = "initialize".toList) := by decide
    simp only [if_neg this]
    have : ¬("tools/call".toList = "initialized".toList) := by decide
    simp only [if_neg this]
    have : ¬("tools/call".toList = "tools/list".toList) := by decide
    simp only [if_neg this, if_pos rfl, handle_tools_call, if_pos ht,
      tool_search_dataset, hq, rpcError]
    exact ⟨_, rfl, rfl⟩
  · intro req q hm ht hq hc
    simp only [handle_jsonrpc, hm]
    have : ¬("tools/call".toList = "initialize".toList) := by decide
    simp only [if_neg this]
    have : ¬("tools/call".toList = "initialized".toList) := by decide
    simp only [if_neg this]
    have : ¬("tools/call".toList = "tools/list".toList) := by decide
    simp only [if_neg this, if_pos rfl, handle_tools_call, if_pos ht,
      tool_search_dataset, hq, search_dataset_impl, hc, rpcError]
    exact ⟨_, rfl, rfl⟩

/-- Witness for C8: each error case exercised at a concrete request
against a regex engine that rejects every pattern. -/
theorem c8_error_mapping_witness :
    (∃ e, (handle_jsonrpc (fun _ => none) [] []
      { jsonrpc := "2.0".toList, id := none, method := "nope".toList,
        params := .null }).error = some e ∧ e.code = -32601) ∧
    (∃ e, (handle_jsonrpc (fun _ => none) [] []
      { jsonrpc := "2.0".toList, id := none, method := "tools/call".toList,
        params := .obj (.cons ("name".toList) (.str ("bogus".toList)) .nil)
      }).error = some e ∧ e.code = -32602) ∧
    (∃ e, (handle_jsonrpc (fun _ => none) [] []
      { jsonrpc := "2.0".toList, id := none, method := "tools/call".toList,
        params := .obj (.cons ("name".toList)
          (.str ("search_dataset".toList)) .nil) }).error = some e ∧
      e.code = -32602) ∧
    (∃ e, (handle_jsonrpc (fun _ => none) [] []
      { jsonrpc := "2.0".toList, id := none, method := "tools/call".toList,
        params := .obj (.cons ("name".toList)
          (.str ("search_dataset".toList))
          (.cons ("arguments".toList)
            (.obj (.cons ("query".toList) (.str ['(']) .nil)) .nil))
      }).error = some e ∧ e.code = -32603) := by
  refine ⟨?_, ?_, ?_, ?_⟩
  · exact (c8_error_mapping (fun _ => none) [] []).1 _
      (by decide) (by decide) (by decide) (by decide) (by decide) (by decide)
  · exact (c8_error_mapping (fun _ => none) [] []).2.1 _
      (by decide) (by decide) (by decide) (by decide) (by decide)
  · exact (c8_error_mapping (fun _ => none) [] []).2.2.1 _
      (by decide) (by decide) (by decide)
  · exact (c8_error_mapping (fun _ => none) [] []).2.2.2 _ ['(']
      (by decide) (by decide) (by decide) rfl

-- ─── C10 helper lemmas ───

theorem joinTrailingSpace_cons (v : List Nat) (vs : List (List Nat)) :
    joinTrailingSpace (v :: vs) = v ++ 32 :: joinTrailingSpace vs := rfl

/-- Closing quote of a value string: the step pushes the separator. -/
theorem extractStep_close (st : ExtractState) (b : Nat)
    (h1 : st.in_string = true) (h2 : st.is_value = true)
    (h3 : st.escaped = false) (hb : b = 34) :
    extractStep st b =
      ({ st with in_string := false, is_value := false }, [32]) := by
  subst hb
  simp [extractStep, h1, h2, h3]

/-- Away from a value-string close, a step pushes nothing or the byte
itself. -/
theorem extractStep_out_cases (st : ExtractState) (b : Nat)
    (h : ¬(st.in_string = true ∧ st.is_value = true ∧ st.escaped = false ∧
      b = 34)) :
    (extractStep st b).2 = [] ∨ (extractStep st b).2 = [b] := by
  rcases st with ⟨ins, esc, isv, ac⟩
  cases ins <;> cases esc <;> cases isv <;>
    simp_all [extractStep] <;> split_ifs <;> simp_all


/-- A step that pushes a byte away from a close is a content byte of
the current value string, and the machine stays inside it. -/
theorem extractStep_push_invalue (st : ExtractState) (b : Nat)
    (hp : (extractStep st b).2 ≠ [])
    (h : ¬(st.in_string = true ∧ st.is_value = true ∧ st.escaped = false ∧
      b = 34)) :
    st.in_string = true ∧ st.is_value = true ∧
      (extractStep st b).1.in_string = true ∧
      (extractStep st b).1.is_value = true := by
  rcases st with ⟨ins, esc, isv, ac⟩
  cases ins <;> cases esc <;> cases isv <;>
    simp_all [extractStep] <;> split_ifs at hp ⊢ <;> simp_all

/-- Inside a value string, a non-close step stays inside it. -/
theorem extractStep_keeps_invalue (st : ExtractState) (b : Nat)
    (h1 : st.in_string = true) (h2 : st.is_value = true)
    (h : ¬(st.escaped = false ∧ b = 34)) :
    (extractStep st b).1.in_string = true ∧
      (extractStep st b).1.is_value = true := by
  rcases st with ⟨ins, esc, isv, ac⟩
  cases esc <;> simp_all [extractStep] <;> split_ifs <;> simp_all

/-- The extractor output is the completed values, each followed by one
space, then the pending partial value. -/
theorem extractGo_eq_parts (data : List Nat) : ∀ st : ExtractState,
    extractGo st data =
      joinTrailingSpace (extractParts st data).1 ++ (extractParts st data).2 := by
  induction data with
  | nil => intro st; simp [extractGo, extractParts, joinTrailingSpace]
  | cons b rest ih =>
    intro st
    by_cases hc : st.in_string = true ∧ st.is_value = true ∧
      st.escaped = false ∧ b = 34
    · obtain ⟨h1, h2, h3, hb⟩ := hc
      subst hb
      have hstep := extractStep_close st 34 h1 h2 h3 rfl
      simp only [extractGo, extractParts, hstep]
      simp [h1, h2, h3, joinTrailingSpace_cons, ih]
    · have hnc : (st.in_string && st.is_value && !st.escaped &&
          decide (b = 34)) = false := by
        rcases st with ⟨ins, esc, isv, ac⟩
        simp only [not_and] at hc
        cases ins <;> cases isv <;> cases esc <;> simp_all
      rcases extractStep_out_cases st b hc with hout | hout
      · simp only [extractGo, extractParts, hout]
        rw [if_neg (by simp [hnc])]
        simp [ih]
      · simp only [extractGo, extractParts, hout]
        rw [if_neg (by simp [hnc]), if_neg (by simp)]
        cases hvs : (extractParts (extractStep st b).1 rest).1 with
        | nil => simp [joinTrailingSpace, ih, hvs]
        | cons v vs => simp [joinTrailingSpace_cons, ih, hvs]

/-- A value string with no completed value later keeps the machine
inside a string to the end of the input. -/
theorem extractParts_invalue_nil (data : List Nat) : ∀ st : ExtractState,
    st.in_string = true → st.is_value = true →
    (extractParts st data).1 = [] →
    (extractFinal st data).in_string = true := by
  induction data with
  | nil =>
    intro st h1 _ _
    simpa [extractFinal] using h1
  | cons b rest ih =>
    intro st h1 h2 hnil
    by_cases hcl : st.escaped = false ∧ b = 34
    · exfalso
      have hcb : (st.in_string && st.is_value && !st.escaped &&
          decide (b = 34)) = true := by
        simp [h1, h2, hcl.1, hcl.2]
      simp only [extractParts] at hnil
      rw [if_pos hcb] at hnil
      exact List.cons_ne_nil _ _ hnil
    · have hkeep := extractStep_keeps_invalue st b h1 h2 hcl
      have hcb : (st.in_string && st.is_value && !st.escaped &&
          decide (b = 34)) = false := by
        rcases st with ⟨ins, esc, isv, ac⟩
        simp only [not_and] at hcl
        cases esc <;> simp_all
      have htl : (extractParts (extractStep st b).1 rest).1 = [] := by
        simp only [extractParts] at hnil
        rw [if_neg (by simp [hcb])] at hnil
        by_cases hp : (extractStep st b).2 = []
        · rwa [if_pos hp] at hnil
        · rw [if_neg hp] at hnil
          cases hvs : (extractParts (extractStep st b).1 rest).1 with
          | nil => rfl
          | cons v vs =>
            rw [hvs] at hnil
            exact absurd hnil (by simp)
      exact ih (extractStep st b).1 hkeep.1 hkeep.2 htl

/-- If the machine ends outside any string, there is no pending
partial value. -/
theorem extractParts_pending_nil (data : List Nat) : ∀ st : ExtractState,
    (extractFinal st data).in_string = false →
    (extractParts st data).2 = [] := by
  induction data with
  | nil => intro st _; simp [extractParts]
  | cons b rest ih =>
    intro st hf
    have hf' : (extractFinal (extractStep st b).1 rest).in_string = false := hf
    by_cases hc : st.in_string = true ∧ st.is_value = true ∧
      st.escaped = false ∧ b = 34
    · have hcb : (st.in_string && st.is_value && !st.escaped &&
          decide (b = 34)) = true := by
        simp [hc.1, hc.2.1, hc.2.2.1, hc.2.2.2]
      simp only [extractParts]
      rw [if_pos hcb]
      exact ih _ hf'
    · have hcb : (st.in_string && st.is_value && !st.escaped &&
          decide (b = 34)) = false := by
        rcases st with ⟨ins, esc, isv, ac⟩
        simp only [not_and] at hc
        cases ins <;> cases isv <;> cases esc <;> simp_all
      simp only [extractParts]
      rw [if_neg (by simp [hcb])]
      by_cases hp : (extractStep st b).2 = []
      · rw [if_pos hp]
        exact ih _ hf'
      · rw [if_neg hp]
        cases hvs : (extractParts (extractStep st b).1 rest).1 with
        | cons v vs => exact ih _ hf'
        | nil =>
          exfalso
          have hiv := extractStep_push_invalue st b hp hc
          have := extractParts_invalue_nil rest (extractStep st b).1
            hiv.2.2.1 hiv.2.2.2 hvs
          rw [hf'] at this
          exact Bool.false_ne_true this

/-- Joined values always end with the space separator. -/
theorem joinTrailingSpace_getLast (vs : List (List Nat)) (h : vs ≠ []) :
    (joinTrailingSpace vs).getLast? = some 32 := by
  induction vs with
  | nil => exact absurd rfl h
  | cons v tl ih =>
    cases tl with
    | nil => simp [joinTrailingSpace]
    | cons w ws =>
      rw [joinTrailingSpace_cons, List.getLast?_append]
      have h32 : (32 :: joinTrailingSpace (w :: ws)).getLast? = some 32 := by
        rw [show (32 :: joinTrailingSpace (w :: ws)) =
          [32] ++ joinTrailingSpace (w :: ws) from rfl,
          List.getLast?_append, ih (by simp)]
        rfl
      rw [h32]
      rfl

/-- C10: the content extractor appends the space separator after every
completed string value, not only between values.  Its output is
exactly the completed values each followed by one space (then the
pending partial value, which is empty whenever the scan ends outside a
string — in particular on every complete JSON input); hence on input
with at least one completed string value the output ends with a
trailing space byte, i.e. it equals the values joined by single spaces
plus one trailing space. -/
theorem c10_extractor_trailing_space (data : List Nat) :
    extract_content_bytes data =
      joinTrailingSpace (extractParts extractInit data).1 ++
        (extractParts extractInit data).2 ∧
    ((extractFinal extractInit data).in_string = false →
      (extractParts extractInit data).2 = [] ∧
      ((extractParts extractInit data).1 ≠ [] →
        (extract_content_bytes data).getLast? = some 32)) := by
  refine ⟨extractGo_eq_parts data extractInit, fun hf => ⟨?_, ?_⟩⟩
  · exact extractParts_pending_nil data extractInit hf
  · intro hvs
    rw [extract_content_bytes, extractGo_eq_parts data extractInit,
      extractParts_pending_nil data extractInit hf, List.append_nil]
    exact joinTrailingSpace_getLast _ hvs

set_option maxRecDepth 100000 in
/-- Witness for C10 at the spec's own example input
`{"prompt":"hello world","response":"goodbye moon"}`: the scan ends
outside any string, there are completed values, and the output ends
with the space byte. -/
theorem c10_extractor_trailing_space_witness :
    (extractFinal extractInit
      (("\x7b\"prompt\":\"hello world\",\"response\":\"goodbye moon\"\x7d".toList).map
        Char.toNat)).in_string = false ∧
    (extractParts extractInit
      (("\x7b\"prompt\":\"hello world\",\"response\":\"goodbye moon\"\x7d".toList).map
        Char.toNat)).1 ≠ [] ∧
    (extract_content_bytes
      (("\x7b\"prompt\":\"hello world\",\"response\":\"goodbye moon\"\x7d".toList).map
        Char.toNat)).getLast? = some 32 :=
  ⟨by decide, by decide,
    ((c10_extractor_trailing_space _).2 (by decide)).2 (by decide)⟩

-- ─── Popcount and BitMask lemmas (C2/C9) ───

theorem popCountAux_eq_sum (fuel : Nat) : ∀ n : Nat,
    popCountAux fuel n = ∑ j ∈ Finset.range fuel, n / 2 ^ j % 2 := by
  induction fuel with
  | zero => intro n; simp [popCountAux]
  | succ f ih =>
    intro n
    rw [popCountAux, ih (n / 2), Finset.sum_range_succ']
    have hterm : ∑ j ∈ Finset.range f, n / 2 ^ (j + 1) % 2 =
        ∑ j ∈ Finset.range f, n / 2 / 2 ^ j % 2 := by
      refine Finset.sum_congr rfl fun j _ => ?_
      rw [Nat.div_div_eq_div_mul, pow_succ, Nat.mul_comm]
    rw [hterm, pow_zero, Nat.div_one, Nat.add_comm]

theorem popCount64_eq_sum (w : Nat) :
    popCount64 w = ∑ j ∈ Finset.range 64, w / 2 ^ j % 2 :=
  popCountAux_eq_sum 64 w

theorem div_pow_mod_two_eq (n j : Nat) :
    n / 2 ^ j % 2 = if n.testBit j then 1 else 0 := by
  by_cases h : n / 2 ^ j % 2 = 1
  · simp [Nat.testBit_to_div_mod, h]
  · have h0 : n / 2 ^ j % 2 = 0 := by omega
    simp [Nat.testBit_to_div_mod, h0]

/-- Setting a clear low bit increments the 64-bit popcount. -/
theorem popCount64_or_two_pow (w b : Nat) (hb : b < 64)
    (h : w.testBit b = false) :
    popCount64 (w ||| 2 ^ b) = popCount64 w + 1 := by
  have hmem : b ∈ Finset.range 64 := Finset.mem_range.mpr hb
  rw [popCount64_eq_sum, popCount64_eq_sum,
    ← Finset.add_sum_erase _ _ hmem, ← Finset.add_sum_erase _ _ hmem]
  have hF'b : (w ||| 2 ^ b) / 2 ^ b % 2 = 1 := by
    rw [div_pow_mod_two_eq]
    simp [Nat.testBit_or, h]
  have hFb : w / 2 ^ b % 2 = 0 := by
    rw [div_pow_mod_two_eq, h]
    rfl
  have hsum : ∑ j ∈ (Finset.range 64).erase b, (w ||| 2 ^ b) / 2 ^ j % 2 =
      ∑ j ∈ (Finset.range 64).erase b, w / 2 ^ j % 2 := by
    refine Finset.sum_congr rfl fun j hj => ?_
    have hjb : j ≠ b := Finset.ne_of_mem_erase hj
    rw [div_pow_mod_two_eq, div_pow_mod_two_eq, Nat.testBit_or,
      Nat.testBit_two_pow]
    simp [Ne.symm hjb]
  rw [hF'b, hFb, hsum]
  omega

theorem getD_set_self' (l : List Nat) (k a : Nat) (h : k < l.length) :
    (l.set k a).getD k 0 = a := by
  rw [List.getD_eq_getElem?_getD, List.getElem?_set_self h]
  rfl

theorem getD_set_ne' (l : List Nat) (k m a : Nat) (h : k ≠ m) :
    (l.set k a).getD m 0 = l.getD m 0 := by
  rw [List.getD_eq_getElem?_getD, List.getElem?_set_ne h,
    ← List.getD_eq_getElem?_getD]

theorem getD_replicate_zero (k j : Nat) :
    (List.replicate k (0 : Nat)).getD j 0 = 0 := by
  rw [List.getD_eq_getElem?_getD]
  cases h : (List.replicate k (0 : Nat))[j]? with
  | none => rfl
  | some v =>
    have hv : v = 0 := List.eq_of_mem_replicate (List.getElem?_mem h)
    simp [hv]

theorem bitmask_get_new (n i : Nat) : (BitMask.new n).get i = false := by
  unfold BitMask.new BitMask.get
  split
  · rfl
  · simp [getD_replicate_zero, Nat.zero_testBit]

theorem bitmask_count_new (n : Nat) : (BitMask.new n).count_ones = 0 := by
  unfold BitMask.new BitMask.count_ones
  have : popCount64 0 = 0 := rfl
  simp [List.map_replicate, this, List.sum_replicate]

theorem bitmask_get_set_self (bm : BitMask) (i : Nat) (hlen : i < bm.len)
    (hw : i / 64 < bm.words.length) : (bm.set i).get i = true := by
  unfold BitMask.set BitMask.get
  rw [if_neg (by simp only []; omega)]
  simp only []
  rw [getD_set_self' _ _ _ hw, Nat.shiftLeft_eq, one_mul]
  simp [Nat.testBit_or, Nat.testBit_two_pow]

theorem bitmask_get_set_ne (bm : BitMask) (i j : Nat) (hij : j ≠ i) :
    (bm.set i).get j = bm.get j := by
  unfold BitMask.set BitMask.get
  by_cases hl : bm.len ≤ j
  · rw [if_pos hl, if_pos hl]
  · rw [if_neg hl, if_neg hl]
    simp only []
    by_cases hdiv : j / 64 = i / 64
    · have hmod : j % 64 ≠ i % 64 := by omega
      rw [hdiv]
      by_cases hw : i / 64 < bm.words.length
      · rw [getD_set_self' _ _ _ hw, Nat.shiftLeft_eq, one_mul,
          Nat.testBit_or, Nat.testBit_two_pow,
          decide_eq_false (fun h => hmod (Eq.symm h)), Bool.or_false]
      · rw [List.set_eq_of_length_le (by omega)]
    · rw [getD_set_ne' _ _ _ _ (fun h => hdiv (Eq.symm h))]

theorem sumMap_popCount_set : ∀ (l : List Nat) (k a : Nat), k < l.length →
    ((l.set k a).map popCount64).sum + popCount64 (l.getD k 0) =
      (l.map popCount64).sum + popCount64 a := by
  intro l
  induction l with
  | nil => intro k a h; simp at h
  | cons x tl ih =>
    intro k a h
    cases k with
    | zero => simp [List.set]; omega
    | succ k' =>
      simp only [List.set, List.map_cons, List.sum_cons, List.getD_cons_succ]
      have := ih k' a (by simpa using h)
      omega

theorem bitmask_count_set (bm : BitMask) (i : Nat)
    (hw : i / 64 < bm.words.length) (h : bm.get i = false)
    (hlen : i < bm.len) :
    (bm.set i).count_ones = bm.count_ones + 1 := by
  unfold BitMask.get at h
  rw [if_neg (by omega)] at h
  unfold BitMask.set BitMask.count_ones
  simp only []
  have hpc : popCount64 (bm.words.getD (i / 64) 0 ||| 1 <<< (i % 64)) =
      popCount64 (bm.words.getD (i / 64) 0) + 1 := by
    rw [Nat.shiftLeft_eq, one_mul]
    exact popCount64_or_two_pow _ _ (by omega) h
  have hs := sumMap_popCount_set bm.words (i / 64)
    (bm.words.getD (i / 64) 0 ||| 1 <<< (i % 64)) hw
  omega

theorem div64_lt_words (i n : Nat) (h : i < n) : i / 64 < (n + 63) / 64 := by
  have h1 : (i + 64) / 64 = i / 64 + 1 := Nat.add_div_right i (by norm_num)
  have h2 : (i + 64) / 64 ≤ (n + 63) / 64 := Nat.div_le_div_right (by omega)
  omega

theorem bitmask_len_set (bm : BitMask) (i : Nat) : (bm.set i).len = bm.len :=
  rfl

theorem bitmask_words_length_set (bm : BitMask) (i : Nat) :
    (bm.set i).words.length = bm.words.length := by
  simp [BitMask.set]

theorem alookup_mem : ∀ (l : List (Nat × Nat)) (k v : Nat),
    alookup k l = some v → (k, v) ∈ l := by
  intro l
  induction l with
  | nil => intro k v h; simp [alookup] at h
  | cons p tl ih =>
    intro k v h
    obtain ⟨k', v'⟩ := p
    simp only [alookup] at h
    by_cases hk : k' = k
    · rw [if_pos hk] at h
      injection h with h'
      subst hk
      subst h'
      exact List.mem_cons_self _ _
    · rw [if_neg hk] at h
      exact List.mem_cons_of_mem _ (ih k v h)

theorem drop_cons_getD (l : List Nat) (k fp : Nat) (rest : List Nat)
    (h : l.drop k = fp :: rest) :
    l.getD k 0 = fp ∧ l.drop (k + 1) = rest ∧ k < l.length := by
  have hk : k < l.length := by
    by_contra hk
    rw [List.drop_eq_nil_iff.mpr (by omega)] at h
    exact List.noConfusion h
  have h0 : l[k]? = some fp := by
    have hd := List.getElem?_drop l k 0
    rw [h] at hd
    simpa using hd.symm
  refine ⟨by simp [List.getD_eq_getElem?_getD, h0], ?_, hk⟩
  have hd := List.drop_drop 1 k l
  rw [h] at hd
  simpa using hd.symm

/-- Core invariant of the exact-mode index construction: lengths are
preserved, the popcount never exceeds the processed prefix, and every
processed index has a canonical index that is no larger, idempotent,
never flagged, and (when flagged itself) carries the same
fingerprint. -/
theorem scanExactGo_inv (fpsAll : List Nat) :
    ∀ (rest : List Nat) (k : Nat) (seen : List (Nat × Nat)) (bm : BitMask)
      (cm : List Nat),
    fpsAll.drop k = rest →
    bm.len = fpsAll.length →
    bm.words.length = (fpsAll.length + 63) / 64 →
    cm.length = fpsAll.length →
    k ≤ fpsAll.length →
    (∀ i, k ≤ i → i < fpsAll.length → cm.getD i 0 = i) →
    (∀ i, k ≤ i → bm.get i = false) →
    bm.count_ones ≤ k →
    (∀ i, i < k → cm.getD i 0 ≤ i ∧ cm.getD (cm.getD i 0) 0 = cm.getD i 0 ∧
      bm.get (cm.getD i 0) = false ∧
      (bm.get i = true → fpsAll.getD i 0 = fpsAll.getD (cm.getD i 0) 0)) →
    (∀ p ∈ seen, p.2 < fpsAll.length ∧ p.2 < k ∧ cm.getD p.2 0 = p.2 ∧
      bm.get p.2 = false ∧ fpsAll.getD p.2 0 = p.1) →
    ((scanExactGo rest k seen bm cm).1.len = fpsAll.length ∧
     (scanExactGo rest k seen bm cm).2.length = fpsAll.length ∧
     (scanExactGo rest k seen bm cm).1.count_ones ≤ fpsAll.length ∧
     (∀ i, i < fpsAll.length →
       (scanExactGo rest k seen bm cm).2.getD i 0 ≤ i ∧
       (scanExactGo rest k seen bm cm).2.getD
           ((scanExactGo rest k seen bm cm).2.getD i 0) 0 =
         (scanExactGo rest k seen bm cm).2.getD i 0 ∧
       (scanExactGo rest k seen bm cm).1.get
           ((scanExactGo rest k seen bm cm).2.getD i 0) = false ∧
       ((scanExactGo rest k seen bm cm).1.get i = true →
         fpsAll.getD i 0 =
           fpsAll.getD ((scanExactGo rest k seen bm cm).2.getD i 0) 0))) := by
  intro rest
  induction rest with
  | nil =>
    intro k seen bm cm hdrop hblen hbw hcml hkn hcmrest hbmrest hcnt hinv hseen
    have hkeq : k = fpsAll.length := by
      have := List.drop_eq_nil_iff.mp hdrop
      omega
    simp only [scanExactGo]
    exact ⟨hblen, hcml, by omega, fun i hi => hinv i (by omega)⟩
  | cons fp rest' ih =>
    intro k seen bm cm hdrop hblen hbw hcml hkn hcmrest hbmrest hcnt hinv hseen
    obtain ⟨hfp, hdrop', hklt⟩ := drop_cons_getD fpsAll k fp rest' hdrop
    cases halk : alookup fp seen with
    | some j =>
      have hj := hseen _ (alookup_mem seen fp j halk)
      simp only [scanExactGo, halk]
      refine ih (k + 1) seen (bm.set k) (cm.set k j) hdrop' ?_ ?_ ?_ ?_ ?_ ?_
        ?_ ?_ ?_
      · rw [bitmask_len_set, hblen]
      · rw [bitmask_words_length_set, hbw]
      · rw [List.length_set, hcml]
      · omega
      · intro i h1 h2
        rw [getD_set_ne' _ _ _ _ (by omega)]
        exact hcmrest i (by omega) h2
      · intro i h1
        rw [bitmask_get_set_ne _ _ _ (by omega)]
        exact hbmrest i (by omega)
      · have hwk : k / 64 < bm.words.length := by
          rw [hbw]
          exact div64_lt_words _ _ hklt
        rw [bitmask_count_set bm k hwk (hbmrest k (le_refl k)) (by omega)]
        omega
      · intro i hik
        by_cases hik' : i < k
        · have hold := hinv i hik'
          have hcmi : (cm.set k j).getD i 0 = cm.getD i 0 :=
            getD_set_ne' _ _ _ _ (by omega)
          have hci_le : cm.getD i 0 ≤ i := hold.1
          have hcci : (cm.set k j).getD (cm.getD i 0) 0 =
              cm.getD (cm.getD i 0) 0 := getD_set_ne' _ _ _ _ (by omega)
          refine ⟨?_, ?_, ?_, ?_⟩
          · rw [hcmi]; exact hold.1
          · rw [hcmi, hcci]; exact hold.2.1
          · rw [hcmi, bitmask_get_set_ne _ _ _ (by omega)]
            exact hold.2.2.1
          · rw [hcmi, bitmask_get_set_ne _ _ _ (by omega)]
            exact hold.2.2.2
        · have hieq : i = k := by omega
          subst hieq
          have hcmk : (cm.set i j).getD i 0 = j :=
            getD_set_self' _ _ _ (by omega)
          have hcmj : (cm.set i j).getD j 0 = cm.getD j 0 :=
            getD_set_ne' _ _ _ _ (by omega)
          refine ⟨?_, ?_, ?_, ?_⟩
          · rw [hcmk]; omega
          · rw [hcmk, hcmj, hj.2.2.1]
          · rw [hcmk, bitmask_get_set_ne _ _ _ (by omega)]
            exact hj.2.2.2.1
          · intro _
            rw [hcmk, hfp, hj.2.2.2.2]
      · intro p hp
        have h := hseen p hp
        refine ⟨h.1, by omega, ?_, ?_, h.2.2.2.2⟩
        · rw [getD_set_ne' _ _ _ _ (by omega)]
          exact h.2.2.1
        · rw [bitmask_get_set_ne _ _ _ (by omega)]
          exact h.2.2.2.1
    | none =>
      simp only [scanExactGo, halk]
      refine ih (k + 1) ((fp, k) :: seen) bm cm hdrop' hblen hbw hcml
        (by omega) ?_ ?_ (by omega) ?_ ?_
      · intro i h1 h2
        exact hcmrest i (by omega) h2
      · intro i h1
        exact hbmrest i (by omega)
      · intro i hik
        by_cases hik' : i < k
        · exact hinv i hik'
        · have hieq : i = k := by omega
          subst hieq
          have hcmk : cm.getD i 0 = i := hcmrest i (le_refl i) (by omega)
          refine ⟨le_of_eq hcmk, by rw [hcmk, hcmk], ?_, ?_⟩
          · rw [hcmk]
            exact hbmrest i (le_refl i)
          · intro hb
            rw [hbmrest i (le_refl i)] at hb
            exact absurd hb (by simp)
      · intro p hp
        rcases List.mem_cons.mp hp with hp1 | hp2
        · subst hp1
          exact ⟨hklt, by omega, hcmrest k (le_refl k) hklt,
            hbmrest k (le_refl k), hfp⟩
        · have h := hseen p hp2
          exact ⟨h.1, by omega, h.2.2.1, h.2.2.2.1, h.2.2.2.2⟩

theorem findNear_mem : ∀ (l : List (Nat × Nat)) (fp t j : Nat),
    findNear fp t l = some j →
    ∃ ufp, (j, ufp) ∈ l ∧ is_near_duplicate fp ufp t = true := by
  intro l
  induction l with
  | nil => intro fp t j h; simp [findNear] at h
  | cons p tl ih =>
    intro fp t j h
    obtain ⟨j', ufp⟩ := p
    simp only [findNear] at h
    by_cases hn : is_near_duplicate fp ufp t = true
    · rw [if_pos hn] at h
      injection h with h'
      subst h'
      exact ⟨ufp, List.mem_cons_self _ _, hn⟩
    · rw [if_neg hn] at h
      obtain ⟨u, hu, hnu⟩ := ih fp t j h
      exact ⟨u, List.mem_cons_of_mem _ hu, hnu⟩

/-- Core invariant of the SimHash index construction, with the Hamming
criterion in place of fingerprint equality. -/
theorem scanSimGo_inv (threshold : Nat) (fpsAll : List Nat) :
    ∀ (rest : List Nat) (k : Nat) (uniq : List (Nat × Nat)) (bm : BitMask)
      (cm : List Nat),
    fpsAll.drop k = rest →
    bm.len = fpsAll.length →
    bm.words.length = (fpsAll.length + 63) / 64 →
    cm.length = fpsAll.length →
    k ≤ fpsAll.length →
    (∀ i, k ≤ i → i < fpsAll.length → cm.getD i 0 = i) →
    (∀ i, k ≤ i → bm.get i = false) →
    bm.count_ones ≤ k →
    (∀ i, i < k → cm.getD i 0 ≤ i ∧ cm.getD (cm.getD i 0) 0 = cm.getD i 0 ∧
      bm.get (cm.getD i 0) = false ∧
      (bm.get i = true →
        hamming_distance (fpsAll.getD i 0)
          (fpsAll.getD (cm.getD i 0) 0) ≤ threshold)) →
    (∀ p ∈ uniq, p.1 < fpsAll.length ∧ p.1 < k ∧ cm.getD p.1 0 = p.1 ∧
      bm.get p.1 = false ∧ fpsAll.getD p.1 0 = p.2) →
    ((scanSimGo threshold rest k uniq bm cm).1.len = fpsAll.length ∧
     (scanSimGo threshold rest k uniq bm cm).2.length = fpsAll.length ∧
     (scanSimGo threshold rest k uniq bm cm).1.count_ones ≤ fpsAll.length ∧
     (∀ i, i < fpsAll.length →
       (scanSimGo threshold rest k uniq bm cm).2.getD i 0 ≤ i ∧
       (scanSimGo threshold rest k uniq bm cm).2.getD
           ((scanSimGo threshold rest k uniq bm cm).2.getD i 0) 0 =
         (scanSimGo threshold rest k uniq bm cm).2.getD i 0 ∧
       (scanSimGo threshold rest k uniq bm cm).1.get
           ((scanSimGo threshold rest k uniq bm cm).2.getD i 0) = false ∧
       ((scanSimGo threshold rest k uniq bm cm).1.get i = true →
         hamming_distance (fpsAll.getD i 0)
           (fpsAll.getD
             ((scanSimGo threshold rest k uniq bm cm).2.getD i 0) 0) ≤
           threshold))) := by
  intro rest
  induction rest with
  | nil =>
    intro k uniq bm cm hdrop hblen hbw hcml hkn hcmrest hbmrest hcnt hinv huniq
    have hkeq : k = fpsAll.length := by
      have := List.drop_eq_nil_iff.mp hdrop
      omega
    simp only [scanSimGo]
    exact ⟨hblen, hcml, by omega, fun i hi => hinv i (by omega)⟩
  | cons fp rest' ih =>
    intro k uniq bm cm hdrop hblen hbw hcml hkn hcmrest hbmrest hcnt hinv huniq
    obtain ⟨hfp, hdrop', hklt⟩ := drop_cons_getD fpsAll k fp rest' hdrop
    cases halk : findNear fp threshold uniq with
    | some j =>
      obtain ⟨ufp, humem, hnear⟩ := findNear_mem uniq fp threshold j halk
      have hj := huniq _ humem
      simp only [scanSimGo, halk]
      refine ih (k + 1) uniq (bm.set k) (cm.set k j) hdrop' ?_ ?_ ?_ ?_ ?_ ?_
        ?_ ?_ ?_
      · rw [bitmask_len_set, hblen]
      · rw [bitmask_words_length_set, hbw]
      · rw [List.length_set, hcml]
      · omega
      · intro i h1 h2
        rw [getD_set_ne' _ _ _ _ (by omega)]
        exact hcmrest i (by omega) h2
      · intro i h1
        rw [bitmask_get_set_ne _ _ _ (by omega)]
        exact hbmrest i (by omega)
      · have hwk : k / 64 < bm.words.length := by
          rw [hbw]
          exact div64_lt_words _ _ hklt
        rw [bitmask_count_set bm k hwk (hbmrest k (le_refl k)) (by omega)]
        omega
      · intro i hik
        by_cases hik' : i < k
        · have hold := hinv i hik'
          have hcmi : (cm.set k j).getD i 0 = cm.getD i 0 :=
            getD_set_ne' _ _ _ _ (by omega)
          have hci_le : cm.getD i 0 ≤ i := hold.1
          have hcci : (cm.set k j).getD (cm.getD i 0) 0 =
              cm.getD (cm.getD i 0) 0 := getD_set_ne' _ _ _ _ (by omega)
          refine ⟨?_, ?_, ?_, ?_⟩
          · rw [hcmi]; exact hold.1
          · rw [hcmi, hcci]; exact hold.2.1
          · rw [hcmi, bitmask_get_set_ne _ _ _ (by omega)]
            exact hold.2.2.1
          · rw [hcmi, bitmask_get_set_ne _ _ _ (by omega)]
            exact hold.2.2.2
        · have hieq : i = k := by omega
          subst hieq
          have hcmk : (cm.set i j).getD i 0 = j :=
            getD_set_self' _ _ _ (by omega)
          have hcmj : (cm.set i j).getD j 0 = cm.getD j 0 :=
            getD_set_ne' _ _ _ _ (by omega)
          refine ⟨?_, ?_, ?_, ?_⟩
          · rw [hcmk]; omega
          · rw [hcmk, hcmj, hj.2.2.1]
          · rw [hcmk, bitmask_get_set_ne _ _ _ (by omega)]
            exact hj.2.2.2.1
          · intro _
            rw [hcmk, hfp, hj.2.2.2.2]
            simpa [is_near_duplicate, decide_eq_true_eq] using hnear
      · intro p hp
        have h := huniq p hp
        refine ⟨h.1, by omega, ?_, ?_, h.2.2.2.2⟩
        · rw [getD_set_ne' _ _ _ _ (by omega)]
          exact h.2.2.1
        · rw [bitmask_get_set_ne _ _ _ (by omega)]
          exact h.2.2.2.1
    | none =>
      simp only [scanSimGo, halk]
      refine ih (k + 1) (uniq ++ [(k, fp)]) bm cm hdrop' hblen hbw hcml
        (by omega) ?_ ?_ (by omega) ?_ ?_
      · intro i h1 h2
        exact hcmrest i (by omega) h2
      · intro i h1
        exact hbmrest i (by omega)
      · intro i hik
        by_cases hik' : i < k
        · exact hinv i hik'
        · have hieq : i = k := by omega
          subst hieq
          have hcmk : cm.getD i 0 = i := hcmrest i (le_refl i) (by omega)
          refine ⟨le_of_eq hcmk, by rw [hcmk, hcmk], ?_, ?_⟩
          · rw [hcmk]
            exact hbmrest i (le_refl i)
          · intro hb
            rw [hbmrest i (le_refl i)] at hb
            exact absurd hb (by simp)
      · intro p hp
        rcases List.mem_append.mp hp with hp1 | hp2
        · have h := huniq p hp1
          exact ⟨h.1, by omega, h.2.2.1, h.2.2.2.1, h.2.2.2.2⟩
        · have hpeq : p = (k, fp) := by simpa using hp2
          subst hpeq
          exact ⟨hklt, by omega, hcmrest k (le_refl k) hklt,
            hbmrest k (le_refl k), hfp⟩

theorem getD_range (n i : Nat) (h : i < n) : (List.range n).getD i 0 = i := by
  rw [List.getD_eq_getElem?_getD, List.getElem?_range h]
  rfl

/-- C2: for every dataset, either strategy, and every record index
`i` of the scan result: `canonical[i] ≤ i`,
`canonical[canonical[i]] == canonical[i]`, the duplicate bit of
`canonical[i]` is not set, `duplicate_count + unique_count` equals
`total_lines`, and `duplicate_count` is the bitmap's `count_ones()`. -/
theorem c2_dedup_result_invariants (strategy : DedupStrategy)
    (lines : List (List Nat)) (i : Nat)
    (h : i < (scan strategy lines).total_lines) :
    (scan strategy lines).canonical_map.getD i 0 ≤ i ∧
    (scan strategy lines).canonical_map.getD
        ((scan strategy lines).canonical_map.getD i 0) 0 =
      (scan strategy lines).canonical_map.getD i 0 ∧
    (scan strategy lines).duplicates.get
        ((scan strategy lines).canonical_map.getD i 0) = false ∧
    (scan strategy lines).duplicate_count +
        (scan strategy lines).unique_count =
      (scan strategy lines).total_lines ∧
    (scan strategy lines).duplicate_count =
      (scan strategy lines).duplicates.count_ones := by
  by_cases hn : lines.length = 0
  · exfalso
    have htot : (scan strategy lines).total_lines = 0 := by
      simp [scan, hn]
    omega
  · have hfl : (phase1 strategy lines).length = lines.length :=
      List.length_map _ _
    have htot : (scan strategy lines).total_lines = lines.length := by
      simp [scan, hn]
    have hi : i < lines.length := by omega
    cases strategy with
    | Exact =>
      have main := scanExactGo_inv (phase1 .Exact lines)
        (phase1 .Exact lines) 0 [] (BitMask.new lines.length)
        (List.range lines.length) rfl
        (by simp [BitMask.new, hfl]) (by simp [BitMask.new, hfl])
        (by simp [hfl]) (by omega)
        (fun j _ hj => getD_range _ _ (by omega))
        (fun j _ => bitmask_get_new _ _)
        (by simp [bitmask_count_new])
        (fun j hj => absurd hj (by omega))
        (fun p hp => absurd hp (List.not_mem_nil p))
      have hper := main.2.2.2 i (by omega)
      have hcan : (scan .Exact lines).canonical_map =
          (scanExactGo (phase1 .Exact lines) 0 [] (BitMask.new lines.length)
            (List.range lines.length)).2 := by
        simp [scan, hn]
      have hdup : (scan .Exact lines).duplicates =
          (scanExactGo (phase1 .Exact lines) 0 [] (BitMask.new lines.length)
            (List.range lines.length)).1 := by
        simp [scan, hn]
      have hdc : (scan .Exact lines).duplicate_count =
          (scanExactGo (phase1 .Exact lines) 0 [] (BitMask.new lines.length)
            (List.range lines.length)).1.count_ones := by
        simp [scan, hn]
      have huc : (scan .Exact lines).unique_count =
          lines.length -
            (scanExactGo (phase1 .Exact lines) 0 [] (BitMask.new lines.length)
              (List.range lines.length)).1.count_ones := by
        simp [scan, hn]
      rw [hcan, hdup, hdc, huc, htot]
      refine ⟨hper.1, hper.2.1, hper.2.2.1, ?_, rfl⟩
      have := main.2.2.1
      omega
    | SimHash t =>
      have main := scanSimGo_inv t (phase1 (.SimHash t) lines)
        (phase1 (.SimHash t) lines) 0 [] (BitMask.new lines.length)
        (List.range lines.length) rfl
        (by simp [BitMask.new, hfl]) (by simp [BitMask.new, hfl])
        (by simp [hfl]) (by omega)
        (fun j _ hj => getD_range _ _ (by omega))
        (fun j _ => bitmask_get_new _ _)
        (by simp [bitmask_count_new])
        (fun j hj => absurd hj (by omega))
        (fun p hp => absurd hp (List.not_mem_nil p))
      have hper := main.2.2.2 i (by omega)
      have hcan : (scan (.SimHash t) lines).canonical_map =
          (scanSimGo t (phase1 (.SimHash t) lines) 0 []
            (BitMask.new lines.length) (List.range lines.length)).2 := by
        simp [scan, hn]
      have hdup : (scan (.SimHash t) lines).duplicates =
          (scanSimGo t (phase1 (.SimHash t) lines) 0 []
            (BitMask.new lines.length) (List.range lines.length)).1 := by
        simp [scan, hn]
      have hdc : (scan (.SimHash t) lines).duplicate_count =
          (scanSimGo t (phase1 (.SimHash t) lines) 0 []
            (BitMask.new lines.length)
            (List.range lines.length)).1.count_ones := by
        simp [scan, hn]
      have huc : (scan (.SimHash t) lines).unique_count =
          lines.length -
            (scanSimGo t (phase1 (.SimHash t) lines) 0 []
              (BitMask.new lines.length)
              (List.range lines.length)).1.count_ones := by
        simp [scan, hn]
      rw [hcan, hdup, hdc, huc, htot]
      refine ⟨hper.1, hper.2.1, hper.2.2.1, ?_, rfl⟩
      have := main.2.2.1
      omega

/-- Witness for C2 at the concrete exact-mode scan of `A,B,A,C,B`,
record 1. -/
theorem c2_dedup_result_invariants_witness :
    (scan .Exact dsABACB).canonical_map.getD 1 0 ≤ 1 ∧
    (scan .Exact dsABACB).canonical_map.getD
        ((scan .Exact dsABACB).canonical_map.getD 1 0) 0 =
      (scan .Exact dsABACB).canonical_map.getD 1 0 ∧
    (scan .Exact dsABACB).duplicates.get
        ((scan .Exact dsABACB).canonical_map.getD 1 0) = false ∧
    (scan .Exact dsABACB).duplicate_count +
        (scan .Exact dsABACB).unique_count =
      (scan .Exact dsABACB).total_lines ∧
    (scan .Exact dsABACB).duplicate_count =
      (scan .Exact dsABACB).duplicates.count_ones :=
  c2_dedup_result_invariants .Exact dsABACB 1 (by decide)

/-- C9: whenever record `i`'s duplicate bit is set, its fingerprint is
within the match criterion of its canonical record: equal fingerprints
under the exact strategy, Hamming distance at most the threshold under
SimHash. -/
theorem c9_duplicate_within_criterion (strategy : DedupStrategy)
    (lines : List (List Nat)) (i : Nat)
    (h : i < (scan strategy lines).total_lines)
    (hd : (scan strategy lines).duplicates.get i = true) :
    (match strategy with
     | .Exact =>
       (scan strategy lines).fingerprints.getD i 0 =
         (scan strategy lines).fingerprints.getD
           ((scan strategy lines).canonical_map.getD i 0) 0
     | .SimHash t =>
       hamming_distance ((scan strategy lines).fingerprints.getD i 0)
         ((scan strategy lines).fingerprints.getD
           ((scan strategy lines).canonical_map.getD i 0) 0) ≤ t) := by
  by_cases hn : lines.length = 0
  · exfalso
    have htot : (scan strategy lines).total_lines = 0 := by
      simp [scan, hn]
    omega
  · have hfl : (phase1 strategy lines).length = lines.length :=
      List.length_map _ _
    have htot : (scan strategy lines).total_lines = lines.length := by
      simp [scan, hn]
    have hi : i < lines.length := by omega
    cases strategy with
    | Exact =>
      have main := scanExactGo_inv (phase1 .Exact lines)
        (phase1 .Exact lines) 0 [] (BitMask.new lines.length)
        (List.range lines.length) rfl
        (by simp [BitMask.new, hfl]) (by simp [BitMask.new, hfl])
        (by simp [hfl]) (by omega)
        (fun j _ hj => getD_range _ _ (by omega))
        (fun j _ => bitmask_get_new _ _)
        (by simp [bitmask_count_new])
        (fun j hj => absurd hj (by omega))
        (fun p hp => absurd hp (List.not_mem_nil p))
      have hper := main.2.2.2 i (by omega)
      have hcan : (scan .Exact lines).canonical_map =
          (scanExactGo (phase1 .Exact lines) 0 [] (BitMask.new lines.length)
            (List.range lines.length)).2 := by
        simp [scan, hn]
      have hdup : (scan .Exact lines).duplicates =
          (scanExactGo (phase1 .Exact lines) 0 [] (BitMask.new lines.length)
            (List.range lines.length)).1 := by
        simp [scan, hn]
      have hfps : (scan .Exact lines).fingerprints = phase1 .Exact lines := by
        simp [scan, hn]
      rw [hdup] at hd
      simp only [hcan, hdup, hfps]
      exact hper.2.2.2 hd
    | SimHash t =>
      have main := scanSimGo_inv t (phase1 (.SimHash t) lines)
        (phase1 (.SimHash t) lines) 0 [] (BitMask.new lines.length)
        (List.range lines.length) rfl
        (by simp [BitMask.new, hfl]) (by simp [BitMask.new, hfl])
        (by simp [hfl]) (by omega)
        (fun j _ hj => getD_range _ _ (by omega))
        (fun j _ => bitmask_get_new _ _)
        (by simp [bitmask_count_new])
        (fun j hj => absurd hj (by omega))
        (fun p hp => absurd hp (List.not_mem_nil p))
      have hper := main.2.2.2 i (by omega)
      have hcan : (scan (.SimHash t) lines).canonical_map =
          (scanSimGo t (phase1 (.SimHash t) lines) 0 []
            (BitMask.new lines.length) (List.range lines.length)).2 := by
        simp [scan, hn]
      have hdup : (scan (.SimHash t) lines).duplicates =
          (scanSimGo t (phase1 (.SimHash t) lines) 0 []
            (BitMask.new lines.length) (List.range lines.length)).1 := by
        simp [scan, hn]
      have hfps : (scan (.SimHash t) lines).fingerprints =
          phase1 (.SimHash t) lines := by
        simp [scan, hn]
      rw [hdup] at hd
      simp only [hcan, hdup, hfps]
      exact hper.2.2.2 hd

/-- Witness for C9 at the concrete exact-mode scan of `A,B,A,C,B`,
record 2 (a flagged duplicate of record 0). -/
theorem c9_duplicate_within_criterion_witness :
    (scan .Exact dsABACB).fingerprints.getD 2 0 =
      (scan .Exact dsABACB).fingerprints.getD
        ((scan .Exact dsABACB).canonical_map.getD 2 0) 0 :=
  c9_duplicate_within_criterion .Exact dsABACB 2 (by decide) (by decide)

-- ─── C7 helper lemmas ───

theorem getD_mem (l : List Nat) (i : Nat) (h : i < l.length) :
    l.getD i 0 ∈ l := by
  rw [List.getD_eq_getElem?_getD, List.getElem?_eq_getElem h]
  exact List.getElem_mem h

theorem lineOffsets_tail_mem (B : List Nat) (q : Nat)
    (h : q ∈ ((List.range B.length).filter
      (fun p => B.getD p 0 = 10 && decide (p + 1 < B.length))).map (· + 1)) :
    ∃ p, q = p + 1 ∧ B.getD p 0 = 10 ∧ p + 1 < B.length := by
  obtain ⟨p, hp, hq⟩ := List.mem_map.mp h
  have hf := (List.mem_filter.mp hp).2
  simp only [Bool.and_eq_true, decide_eq_true_eq] at hf
  exact ⟨p, hq.symm, hf.1, hf.2⟩

theorem lineOffsets_complete (B : List Nat) (p : Nat)
    (h10 : B.getD p 0 = 10) (hp : p + 1 < B.length) :
    p + 1 ∈ lineOffsets B := by
  apply List.mem_cons_of_mem
  apply List.mem_map.mpr
  refine ⟨p, List.mem_filter.mpr ⟨List.mem_range.mpr (by omega), ?_⟩, rfl⟩
  simp only [Bool.and_eq_true, decide_eq_true_eq]
  exact ⟨h10, hp⟩

theorem lineOffsets_pairwise (B : List Nat) :
    (lineOffsets B).Pairwise (· < ·) := by
  unfold lineOffsets
  refine List.Pairwise.cons ?_ ?_
  · intro q hq
    obtain ⟨p, hpq, _, _⟩ := lineOffsets_tail_mem B q hq
    omega
  · exact List.Pairwise.map _ (fun a b hab => by omega)
      (List.Pairwise.filter _ (List.pairwise_lt_range _))

/-- A strictly sorted list has no element strictly between two
consecutive entries. -/
theorem pairwise_no_between (l : List Nat) (hs : l.Pairwise (· < ·))
    (i x : Nat) (hi : i + 1 < l.length) (hx : x ∈ l)
    (h1 : l.getD i 0 < x) (h2 : x < l.getD (i + 1) 0) : False := by
  obtain ⟨j, hj⟩ := List.mem_iff_get.mp hx
  have hmono : StrictMono l.get := List.Sorted.get_strictMono hs
  have hgetD : ∀ (k : Nat) (hk : k < l.length), l.getD k 0 = l.get ⟨k, hk⟩ := by
    intro k hk
    rw [List.getD_eq_getElem?_getD, List.getElem?_eq_getElem hk]
    rfl
  rw [hgetD i (by omega)] at h1
  rw [hgetD (i + 1) hi] at h2
  rcases Nat.lt_or_ge j.val (i + 1) with hj1 | hj1
  · have hle : l.get j ≤ l.get ⟨i, by omega⟩ :=
      hmono.monotone (by exact Fin.mk_le_mk.mpr (by omega))
    rw [hj] at hle
    omega
  · have hle : l.get ⟨i + 1, hi⟩ ≤ l.get j :=
      hmono.monotone (by exact Fin.mk_le_mk.mpr (by omega))
    rw [hj] at hle
    omega

theorem getLast_take_drop (B : List Nat) (start stop : Nat)
    (h1 : start < stop) (h2 : stop ≤ B.length) :
    ((B.drop start).take (stop - start)).getLast? =
      some (B.getD (stop - 1) 0) := by
  have hlen : ((B.drop start).take (stop - start)).length = stop - start := by
    rw [List.length_take, List.length_drop]
    omega
  rw [List.getLast?_eq_getElem?, hlen, List.getElem?_take,
    if_pos (by omega), List.getElem?_drop]
  have harg : start + (stop - start - 1) = stop - 1 := by omega
  rw [harg, List.getElem?_eq_getElem (by omega),
    List.getD_eq_getElem?_getD, List.getElem?_eq_getElem (by omega)]
  rfl

/-- C7 (amended): every record other than the last excludes its
terminating newline — the byte slice returned by `get_line` never ends
with the newline byte for `i + 1 < line_count`.  (The last record runs
to the end of the buffer and does end with a newline when the source
does; see the counterexample.) -/
theorem c7_interior_records_exclude_newline (B : List Nat) (i : Nat)
    (content : List Nat) (hlt : i + 1 < lineCount B)
    (hget : get_line B i = some content) :
    content.getLast? ≠ some 10 := by
  intro hlast
  have hlen : i + 1 < (lineOffsets B).length := hlt
  unfold get_line at hget
  rw [if_neg (by omega : ¬(lineOffsets B).length ≤ i)] at hget
  rw [if_pos hlen] at hget
  set q := (lineOffsets B).getD (i + 1) 0 with hqdef
  set start := (lineOffsets B).getD i 0 with hstartdef
  set stop := min (q - 1) B.length with hstopdef
  by_cases hempty : stop ≤ start
  · rw [if_pos hempty] at hget
    injection hget with hc
    rw [← hc] at hlast
    simp at hlast
  · rw [if_neg hempty] at hget
    injection hget with hc
    push_neg at hempty
    have hq : q ∈ lineOffsets B := getD_mem _ _ (by omega)
    rcases List.mem_cons.mp (by rw [lineOffsets] at hq; exact hq) with hq0 |
      hqtail
    · omega
    · obtain ⟨p, hpq, hp10, hplen⟩ := lineOffsets_tail_mem B q hqtail
      have hqlen : q < B.length := by omega
      have hstop_eq : stop = q - 1 := by omega
      have hlastval : content.getLast? = some (B.getD (stop - 1) 0) := by
        rw [← hc]
        exact getLast_take_drop B start stop hempty (by omega)
      rw [hlastval] at hlast
      have h10 : B.getD (stop - 1) 0 = 10 := Option.some.inj hlast
      have hmem : stop ∈ lineOffsets B := by
        have hsucc : stop - 1 + 1 = stop := by omega
        rw [← hsucc]
        exact lineOffsets_complete B (stop - 1) h10 (by omega)
      exact pairwise_no_between (lineOffsets B) (lineOffsets_pairwise B) i
        stop (by omega) hmem (by omega) (by omega)

/-- Witness for C7 (amended) over the source `a\nb\n`: the interior
record 0 is `[97]` and does not end with a newline. -/
theorem c7_interior_records_exclude_newline_witness :
    1 + 1 ≤ lineCount [97, 10, 98, 10] ∧
    get_line [97, 10, 98, 10] 0 = some [97] ∧
    ([97] : List Nat).getLast? ≠ some 10 :=
  ⟨by decide, by decide,
    c7_interior_records_exclude_newline [97, 10, 98, 10] 0 [97]
      (by decide) (by decide)⟩

-- ─── C4 helper lemmas: decimal digits ───

theorem digitChar_isDigit (d : Nat) (h : d < 10) :
    (digitChar d).isDigit = true := by
  interval_cases d <;> decide

theorem digitVal_digitChar (d : Nat) (h : d < 10) :
    digitVal (digitChar d) = d := by
  interval_cases d <;> decide

theorem digitChar_eq_zero_iff (d : Nat) (h : d < 10) :
    digitChar d = '0' ↔ d = 0 := by
  interval_cases d <;> simp <;> decide

theorem isJsonWs_digitChar (d : Nat) (h : d < 10) :
    isJsonWs (digitChar d) = false := by
  interval_cases d <;> decide

theorem isRustWs_digitChar (d : Nat) (h : d < 10) :
    isRustWs (digitChar d) = false := by
  interval_cases d <;> decide

theorem digitChar_ne_minus (d : Nat) (h : d < 10) : digitChar d ≠ '-' := by
  interval_cases d <;> decide

theorem hexVal_hexChar (d : Nat) (h : d < 16) : hexVal (hexChar d) = some d := by
  interval_cases d <;> decide

theorem parseNat10_append_digit (a : List Char) (c : Char) :
    parseNat10 (a ++ [c]) = 10 * parseNat10 a + digitVal c := by
  simp [parseNat10, List.foldl_append]

/-- Full specification of the digit printer: every emitted character
is a decimal digit character, the list is nonempty, it parses back to
`n`, a leading `'0'` forces `n = 0`, and it starts with some digit
character. -/
theorem natDigitsAux_spec : ∀ (fuel n : Nat), n < fuel →
    (∀ c ∈ natDigitsAux fuel n, ∃ d, d < 10 ∧ c = digitChar d) ∧
    natDigitsAux fuel n ≠ [] ∧
    parseNat10 (natDigitsAux fuel n) = n ∧
    (∀ c, (natDigitsAux fuel n).head? = some c → c = '0' → n = 0) ∧
    (∃ d tl, d < 10 ∧ natDigitsAux fuel n = digitChar d :: tl) := by
  intro fuel
  induction fuel with
  | zero => intro n h; omega
  | succ f ih =>
    intro n h
    by_cases h10 : n < 10
    · simp only [natDigitsAux, if_pos h10]
      refine ⟨?_, by simp, ?_, ?_, ⟨n, [], h10, rfl⟩⟩
      · intro c hc
        simp at hc
        exact ⟨n, h10, hc⟩
      · simp [parseNat10, digitVal_digitChar n h10]
      · intro c hc hc0
        simp at hc
        rw [← hc] at hc0
        exact (digitChar_eq_zero_iff n h10).mp hc0
    · have hrec : n / 10 < f := by omega
      obtain ⟨hall, hne, hval, hzero, d, tl, hd, htl⟩ := ih (n / 10) hrec
      simp only [natDigitsAux, if_neg h10]
      refine ⟨?_, by simp [hne], ?_, ?_, ?_⟩
      · intro c hc
        rcases List.mem_append.mp hc with hc1 | hc2
        · exact hall c hc1
        · simp at hc2
          exact ⟨n % 10, by omega, hc2⟩
      · rw [parseNat10_append_digit, hval, digitVal_digitChar _ (by omega)]
        omega
      · intro c hc hc0
        rw [htl] at hc
        simp at hc
        have : n / 10 = 0 := hzero c (by rw [htl]; simp [hc]) hc0
        omega
      · refine ⟨d, tl ++ [digitChar (n % 10)], hd, ?_⟩
        rw [htl]
        simp

theorem natDigits_spec (n : Nat) :
    (∀ c ∈ natDigits n, ∃ d, d < 10 ∧ c = digitChar d) ∧
    natDigits n ≠ [] ∧
    parseNat10 (natDigits n) = n ∧
    (∀ c, (natDigits n).head? = some c → c = '0' → n = 0) ∧
    (∃ d tl, d < 10 ∧ natDigits n = digitChar d :: tl) :=
  natDigitsAux_spec (n + 1) n (by omega)

theorem takeWhile_append_of_all (p : Char → Bool) :
    ∀ (a b : List Char), (∀ c ∈ a, p c = true) →
    (∀ c, b.head? = some c → p c = false) →
    (a ++ b).takeWhile p = a ∧ (a ++ b).dropWhile p = b := by
  intro a
  induction a with
  | nil =>
    intro b _ hb
    cases b with
    | nil => simp
    | cons c cs =>
      have := hb c rfl
      simp [List.takeWhile_cons, List.dropWhile_cons, this]
  | cons x xs ih =>
    intro b ha hb
    have hx : p x = true := ha x (List.mem_cons_self _ _)
    have := ih b (fun c hc => ha c (List.mem_cons_of_mem _ hc)) hb
    simp [List.takeWhile_cons, List.dropWhile_cons, hx, this.1, this.2]

theorem parseUInt_natDigits (m : Nat) (rest : List Char)
    (hrest : ∀ c, rest.head? = some c →
      c.isDigit = false ∧ c ≠ '.' ∧ c ≠ 'e' ∧ c ≠ 'E') :
    parseUInt (natDigits m ++ rest) = some (m, rest) := by
  obtain ⟨hall, hne, hval, hzero, d, tl, hd, htl⟩ := natDigits_spec m
  have hsplit := takeWhile_append_of_all Char.isDigit (natDigits m) rest
    (fun c hc => by
      obtain ⟨e, he, hce⟩ := hall c hc
      rw [hce]
      exact digitChar_isDigit e he)
    (fun c hc => (hrest c hc).1)
  unfold parseUInt
  rw [hsplit.1, hsplit.2, if_neg hne]
  have hlead : ¬((natDigits m).head? = some '0' ∧ 1 < (natDigits m).length) := by
    rintro ⟨hh, hlen⟩
    have hm0 : m = 0 := hzero '0' hh rfl
    rw [hm0] at hlen
    have : natDigits 0 = ['0'] := rfl
    rw [this] at hlen
    simp at hlen
  rw [if_neg (by
    simp only [Bool.and_eq_true, decide_eq_true_eq]
    intro hcon
    exact hlead ⟨hcon.1, hcon.2⟩)]
  cases hr : rest with
  | nil => simp [hval]
  | cons c cs =>
    have hc := hrest c (by rw [hr]; rfl)
    show (if (decide (c = '.') || decide (c = 'e') || decide (c = 'E')) = true
      then none
      else some (parseNat10 (natDigits m), c :: cs)) = some (m, c :: cs)
    rw [if_neg (by simp [hc.2.1, hc.2.2.1, hc.2.2.2]), hval]

theorem parseNumber_serNum (n : Int) (rest : List Char)
    (hrest : ∀ c, rest.head? = some c →
      c.isDigit = false ∧ c ≠ '.' ∧ c ≠ 'e' ∧ c ≠ 'E') :
    parseNumber (serNum n ++ rest) = some (n, rest) := by
  by_cases hneg : n < 0
  · have hser : serNum n = '-' :: natDigits n.natAbs := by
      simp [serNum, hneg]
    rw [hser]
    show parseNumber ('-' :: (natDigits n.natAbs ++ rest)) = some (n, rest)
    simp only [parseNumber]
    rw [parseUInt_natDigits n.natAbs rest hrest]
    simp only [Option.map_some']
    congr 1
    have : ((n.natAbs : Int)) = -n := by omega
    rw [this]
    simp
  · have hser : serNum n = natDigits n.toNat := by
      simp [serNum, hneg]
    rw [hser]
    obtain ⟨hall, hne, hval, hzero, d, tl, hd, htl⟩ := natDigits_spec n.toNat
    rw [htl]
    show parseNumber (digitChar d :: (tl ++ rest)) = some (n, rest)
    unfold parseNumber
    split
    · rename_i r heq
      exact absurd (List.head_eq_of_cons_eq heq).symm
        (Ne.symm (digitChar_ne_minus d hd))
    · have hback : digitChar d :: (tl ++ rest) = natDigits n.toNat ++ rest := by
        rw [htl]
        simp
      rw [hback, parseUInt_natDigits n.toNat rest hrest]
      simp only [Option.map_some']
      congr 1
      have : ((n.toNat : Int)) = n := by omega
      rw [this]


theorem parseStr_content_step (c : Char) (X : List Char) (h1 : c ≠ '"')
    (h2 : c ≠ '\\') (h3 : ¬c.toNat < 32) :
    parseStr (c :: X) = (parseStr X).map (fun p => (c :: p.1, p.2)) := by
  simp only [parseStr]
  rw [if_neg h1, if_neg h2, if_neg h3]

theorem parseStr_esc_u00 (hi lo : Nat) (hhi : hi < 2) (hlo : lo < 16)
    (X : List Char) :
    parseStr ('\\' :: 'u' :: '0' :: '0' :: hexChar hi :: hexChar lo :: X) =
      (parseStr X).map (fun p => (Char.ofNat (16 * hi + lo) :: p.1, p.2)) := by
  interval_cases hi <;> interval_cases lo <;> rfl

theorem parseStr_escString : ∀ (s rest : List Char),
    parseStr (escString s ++ '"' :: rest) = some (s, rest) := by
  intro s
  induction s with
  | nil => intro rest; rfl
  | cons c s' ih =>
    intro rest
    have hesc : escString (c :: s') ++ '"' :: rest =
        escChar c ++ (escString s' ++ '"' :: rest) := by
      simp [escString, List.append_assoc]
    rw [hesc]
    by_cases h1 : c = '"'
    · subst h1
      rw [show escChar '"' = ['\\', '"'] from rfl]
      have hstep : ∀ Y, parseStr ('\\' :: '"' :: Y) =
          (parseStr Y).map (fun p => ('"' :: p.1, p.2)) := fun Y => rfl
      rw [List.cons_append, List.cons_append, List.nil_append, hstep, ih]
      rfl
    · by_cases h2 : c = '\\'
      · subst h2
        rw [show escChar '\\' = ['\\', '\\'] from rfl]
        have hstep : ∀ Y, parseStr ('\\' :: '\\' :: Y) =
            (parseStr Y).map (fun p => ('\\' :: p.1, p.2)) := fun Y => rfl
        rw [List.cons_append, List.cons_append, List.nil_append, hstep, ih]
        rfl
      · by_cases h3 : c.toNat = 8
        · have hc : c = Char.ofNat 8 := by rw [← h3, Char.ofNat_toNat]
          subst hc
          rw [show escChar (Char.ofNat 8) = ['\\', 'b'] from rfl]
          have hstep : ∀ Y, parseStr ('\\' :: 'b' :: Y) =
              (parseStr Y).map (fun p => (Char.ofNat 8 :: p.1, p.2)) :=
            fun Y => rfl
          rw [List.cons_append, List.cons_append, List.nil_append, hstep, ih]
          rfl
        · by_cases h4 : c.toNat = 9
          · have hc : c = Char.ofNat 9 := by rw [← h4, Char.ofNat_toNat]
            subst hc
            rw [show escChar (Char.ofNat 9) = ['\\', 't'] from rfl]
            have hstep : ∀ Y, parseStr ('\\' :: 't' :: Y) =
                (parseStr Y).map (fun p => ('\t' :: p.1, p.2)) := fun Y => rfl
            rw [List.cons_append, List.cons_append, List.nil_append, hstep, ih]
            rfl
          · by_cases h5 : c.toNat = 10
            · have hc : c = Char.ofNat 10 := by rw [← h5, Char.ofNat_toNat]
              subst hc
              rw [show escChar (Char.ofNat 10) = ['\\', 'n'] from rfl]
              have hstep : ∀ Y, parseStr ('\\' :: 'n' :: Y) =
                  (parseStr Y).map (fun p => ('\n' :: p.1, p.2)) :=
                fun Y => rfl
              rw [List.cons_append, List.cons_append, List.nil_append, hstep,
                ih]
              rfl
            · by_cases h6 : c.toNat = 12
              · have hc : c = Char.ofNat 12 := by
                  rw [← h6, Char.ofNat_toNat]
                subst hc
                rw [show escChar (Char.ofNat 12) = ['\\', 'f'] from rfl]
                have hstep : ∀ Y, parseStr ('\\' :: 'f' :: Y) =
                    (parseStr Y).map (fun p => (Char.ofNat 12 :: p.1, p.2)) :=
                  fun Y => rfl
                rw [List.cons_append, List.cons_append, List.nil_append,
                  hstep, ih]
                rfl
              · by_cases h7 : c.toNat = 13
                · have hc : c = Char.ofNat 13 := by
                    rw [← h7, Char.ofNat_toNat]
                  subst hc
                  rw [show escChar (Char.ofNat 13) = ['\\', 'r'] from rfl]
                  have hstep : ∀ Y, parseStr ('\\' :: 'r' :: Y) =
                      (parseStr Y).map
                        (fun p => (Char.ofNat 13 :: p.1, p.2)) :=
                    fun Y => rfl
                  rw [List.cons_append, List.cons_append, List.nil_append,
                    hstep, ih]
                  rfl
                · by_cases h8 : c.toNat < 32
                  · have hescc : escChar c = ['\\', 'u', '0', '0',
                        hexChar (c.toNat / 16), hexChar (c.toNat % 16)] := by
                      simp only [escChar, if_neg h1, if_neg h2, if_neg h3,
                        if_neg h4, if_neg h5, if_neg h6, if_neg h7,
                        if_pos h8]
                    rw [hescc]
                    simp only [List.cons_append, List.nil_append]
                    rw [parseStr_esc_u00 (c.toNat / 16) (c.toNat % 16)
                      (by omega) (by omega), ih]
                    have harg : 16 * (c.toNat / 16) + c.toNat % 16 =
                        c.toNat := by omega
                    rw [harg, Char.ofNat_toNat]
                    rfl
                  · have hescc : escChar c = [c] := by
                      simp only [escChar, if_neg h1, if_neg h2, if_neg h3,
                        if_neg h4, if_neg h5, if_neg h6, if_neg h7,
                        if_neg h8]
                    rw [hescc]
                    simp only [List.cons_append, List.nil_append]
                    rw [parseStr_content_step c _ h1 h2 h8, ih]
                    rfl

theorem stripPfx_append : ∀ (p s : List Char), stripPfx p (p ++ s) = some s := by
  intro p
  induction p with
  | nil => intro s; rfl
  | cons c cs ih => intro s; simp [stripPfx, ih]

theorem skipWs_cons_nws (c : Char) (r : List Char) (h : isJsonWs c = false) :
    skipWs (c :: r) = c :: r := by
  simp [skipWs, List.dropWhile_cons, h]

theorem dropWhile_head_false (p : Char → Bool) (l : List Char)
    (h : ∀ c, l.head? = some c → p c = false) : l.dropWhile p = l := by
  cases l with
  | nil => rfl
  | cons c r => simp [List.dropWhile_cons, h c rfl]

theorem digitChar_not_special (d : Nat) (h : d < 10) :
    isRustWs (digitChar d) = false ∧ digitChar d ≠ ']' ∧
      digitChar d ≠ '\x7d' := by
  interval_cases d <;> exact ⟨by decide, by decide, by decide⟩

/-- The compact serialization of any value is nonempty and starts with
a character that is neither whitespace nor a closing delimiter. -/
theorem serV_shape (v : JValue) : ∃ c cs, serV v = c :: cs ∧
    isJsonWs c = false ∧ isRustWs c = false ∧ c ≠ ']' ∧ c ≠ '\x7d' := by
  cases v with
  | null => exact ⟨'n', ['u', 'l', 'l'], rfl, by decide, by decide, by decide, by decide⟩
  | bool b =>
    cases b with
    | true => exact ⟨'t', ['r', 'u', 'e'], rfl, by decide, by decide, by decide, by decide⟩
    | false => exact ⟨'f', ['a', 'l', 's', 'e'], rfl, by decide, by decide, by decide, by decide⟩
  | num n =>
    by_cases hneg : n < 0
    · refine ⟨'-', natDigits n.natAbs, ?_, by decide, by decide, by decide, by decide⟩
      simp [serV, serNum, hneg]
    · obtain ⟨_, _, _, _, d, tl, hd, htl⟩ := natDigits_spec n.toNat
      obtain ⟨h2, h3, h4⟩ := digitChar_not_special d hd
      refine ⟨digitChar d, tl, ?_, isJsonWs_digitChar d hd, h2, h3, h4⟩
      simp [serV, serNum, hneg, htl]
  | str s =>
    exact ⟨'"', escString s ++ ['"'], by simp [serV], by decide, by decide, by decide, by decide⟩
  | arr a =>
    exact ⟨'[', serArrItems a ++ [']'], by simp [serV], by decide, by decide, by decide, by decide⟩
  | obj o =>
    exact ⟨'\x7b', serObjItems o ++ ['\x7d'], by simp [serV], by decide, by decide, by decide, by decide⟩

/-- A nonempty item list serializes to the first item's serialization
followed by more text; in particular its head is the first item's head. -/
theorem serArrItems_shape (v : JValue) (t : JArr) :
    ∃ c cs, serArrItems (JArr.cons v t) = c :: cs ∧
      isJsonWs c = false ∧ c ≠ ']' := by
  obtain ⟨c, cs, hv, hws, _, h3, _⟩ := serV_shape v
  cases t with
  | nil => exact ⟨c, cs, by simp [serArrItems, hv], hws, h3⟩
  | cons w u =>
    exact ⟨c, cs ++ ',' :: serArrItems (JArr.cons w u),
      by simp [serArrItems, hv], hws, h3⟩

/-- A nonempty member list serializes to text starting with the first
key's opening quote. -/
theorem serObjItems_shape (k : List Char) (v : JValue) (t : JObj) :
    ∃ cs, serObjItems (JObj.cons k v t) = '"' :: cs := by
  cases t with
  | nil => exact ⟨escString k ++ '"' :: ':' :: serV v, by simp [serObjItems]⟩
  | cons k2 v2 u =>
    exact ⟨(escString k ++ '"' :: ':' :: serV v) ++
      ',' :: serObjItems (JObj.cons k2 v2 u), by simp [serObjItems]⟩

theorem needV_pos (v : JValue) : 1 ≤ needV v := by
  cases v <;> simp [needV]

mutual
/-- The nesting budget of a value is covered by the length of its
serialization. -/
theorem needV_le : ∀ v : JValue, needV v ≤ (serV v).length
  | .null => by simp [needV, serV]
  | .bool b => by cases b <;> simp [needV, serV]
  | .num n => by
    have h1 : natDigits n.toNat ≠ [] := (natDigits_spec n.toNat).2.1
    have h2 : natDigits n.natAbs ≠ [] := (natDigits_spec n.natAbs).2.1
    have hl1 : 0 < (natDigits n.toNat).length := List.length_pos.mpr h1
    have hl2 : 0 < (natDigits n.natAbs).length := List.length_pos.mpr h2
    by_cases hneg : n < 0
    · simp only [needV, serV, serNum, if_pos hneg, List.length_cons]
      omega
    · simp only [needV, serV, serNum, if_neg hneg]
      omega
  | .str s => by simp [needV, serV]
  | .arr a => by
    have h := needA_le a
    simp only [needV, serV, List.length_cons, List.length_append]
    omega
  | .obj o => by
    have h := needO_le o
    simp only [needV, serV, List.length_cons, List.length_append]
    omega
/-- Budget bound for serialized item lists. -/
theorem needA_le : ∀ a : JArr, needA a ≤ 1 + (serArrItems a).length
  | .nil => by simp [needA]
  | .cons v t => by
    have hv := needV_le v
    have ht := needA_le t
    cases t with
    | nil =>
      simp only [needA, serArrItems] at *
      omega
    | cons w u =>
      simp only [needA, serArrItems, List.length_append, List.length_cons] at *
      omega
/-- Budget bound for serialized member lists. -/
theorem needO_le : ∀ o : JObj, needO o ≤ 1 + (serObjItems o).length
  | .nil => by simp [needO]
  | .cons k v t => by
    have hv := needV_le v
    have ht := needO_le t
    cases t with
    | nil =>
      simp only [needO, serObjItems, List.length_append, List.length_cons] at *
      omega
    | cons k2 v2 u =>
      simp only [needO, serObjItems, List.length_append, List.length_cons] at *
      omega
end

theorem jappend_nil : ∀ o : JObj, jappend o JObj.nil = o
  | .nil => rfl
  | .cons k v t => by simp [jappend, jappend_nil t]

theorem jappend_assoc : ∀ a b c : JObj,
    jappend (jappend a b) c = jappend a (jappend b c)
  | .nil, _, _ => rfl
  | .cons k v t, b, c => by simp [jappend, jappend_assoc t b c]

theorem jobjHasKey_jappend : ∀ (a b : JObj) (k : List Char),
    jobjHasKey (jappend a b) k = (jobjHasKey a k || jobjHasKey b k)
  | .nil, b, k => by simp [jappend, jobjHasKey]
  | .cons k0 v0 t, b, k => by
    simp [jappend, jobjHasKey, jobjHasKey_jappend t b k, Bool.or_assoc]

theorem objInsert_append : ∀ (acc : JObj) (k : List Char) (v : JValue),
    jobjHasKey acc k = false →
    objInsert acc k v = jappend acc (JObj.cons k v JObj.nil)
  | .nil, _, _, _ => rfl
  | .cons k0 v0 t, k, v, h => by
    simp only [jobjHasKey, Bool.or_eq_false_iff,
      decide_eq_false_iff_not] at h
    simp only [objInsert, if_neg h.1, jappend]
    rw [objInsert_append t k v h.2]

theorem buildObj_disjoint : ∀ (o acc : JObj), keysOkO o = true →
    (∀ k, jobjHasKey acc k = true → jobjHasKey o k = false) →
    buildObj acc o = jappend acc o
  | .nil, acc, _, _ => by simp [buildObj, jappend_nil]
  | .cons k v t, acc, hok, hdisj => by
    simp only [keysOkO, Bool.and_eq_true, Bool.not_eq_true'] at hok
    obtain ⟨⟨hkt, hv⟩, ht⟩ := hok
    have hacck : jobjHasKey acc k = false := by
      cases hc : jobjHasKey acc k with
      | false => rfl
      | true =>
        have h2 := hdisj k hc
        simp [jobjHasKey] at h2
    simp only [buildObj]
    rw [objInsert_append acc k v hacck,
      buildObj_disjoint t (jappend acc (JObj.cons k v JObj.nil)) ht (by
      intro k2 hk2
      rw [jobjHasKey_jappend] at hk2
      simp only [jobjHasKey, Bool.or_false, Bool.or_eq_true,
        decide_eq_true_eq] at hk2
      cases hk2 with
      | inl hk2 =>
        have h3 := hdisj k2 hk2
        simp only [jobjHasKey, Bool.or_eq_false_iff] at h3
        exact h3.2
      | inr hk2 =>
        rw [← hk2]
        exact hkt)]
    rw [jappend_assoc]
    rfl

/-- Duplicate-free member lists are fixed points of serde's map
insertion. -/
theorem dedupObj_self (o : JObj) (h : keysOkO o = true) : dedupObj o = o := by
  unfold dedupObj
  rw [buildObj_disjoint o JObj.nil h (by intro k hk; simp [jobjHasKey] at hk)]
  rfl

/-- Parsing a compact serialization consumes exactly it: mutual
roundtrip for values, item lists (up to the closing bracket) and
member lists (up to the closing brace), by induction on fuel. -/
theorem parse_ser_roundtrip : ∀ fuel : Nat,
    (∀ v rest, needV v ≤ fuel → keysOkV v = true →
      (∀ c, rest.head? = some c →
        c.isDigit = false ∧ c ≠ '.' ∧ c ≠ 'e' ∧ c ≠ 'E') →
      parseValue fuel (serV v ++ rest) = some (v, rest)) ∧
    (∀ a rest, needA a ≤ fuel → keysOkA a = true → a ≠ JArr.nil →
      parseArrItems fuel (serArrItems a ++ ']' :: rest) = some (a, rest)) ∧
    (∀ o rest, needO o ≤ fuel → keysOkO o = true → o ≠ JObj.nil →
      parseObjItems fuel (serObjItems o ++ '\x7d' :: rest) = some (o, rest)) := by
  intro fuel
  induction fuel with
  | zero =>
    refine ⟨?_, ?_, ?_⟩
    · intro v rest hle _ _
      have := needV_pos v
      omega
    · intro a rest hle _ hne
      cases a with
      | nil => exact absurd rfl hne
      | cons v t => simp [needA] at hle
    · intro o rest hle _ hne
      cases o with
      | nil => exact absurd rfl hne
      | cons k v t => simp [needO] at hle
  | succ f ih =>
    obtain ⟨ihV, ihA, ihO⟩ := ih
    refine ⟨?_, ?_, ?_⟩
    · intro v rest hle hkeys hrest
      cases v with
      | null => rfl
      | bool b => cases b <;> rfl
      | str s =>
        have h1 : serV (JValue.str s) ++ rest =
            '"' :: (escString s ++ '"' :: rest) := by
          simp [serV]
        rw [h1]
        simp only [parseValue]
        rw [skipWs_cons_nws '"' _ (by decide)]
        simp [parseStr_escString s rest]
      | num n =>
        have hnum := parseNumber_serNum n rest hrest
        by_cases hneg : n < 0
        · have h1 : serV (JValue.num n) ++ rest =
              '-' :: (natDigits n.natAbs ++ rest) := by
            simp [serV, serNum, hneg]
          have h2 : ∀ X, parseValue (f + 1) ('-' :: X) =
              (parseNumber ('-' :: X)).map (fun p => (JValue.num p.1, p.2)) :=
            fun X => rfl
          rw [h1, h2]
          have h3 : '-' :: (natDigits n.natAbs ++ rest) = serNum n ++ rest := by
            simp [serNum, hneg]
          rw [h3, hnum]
          rfl
        · obtain ⟨_, _, _, _, d, tl, hd, htl⟩ := natDigits_spec n.toNat
          have h1 : serV (JValue.num n) ++ rest = digitChar d :: (tl ++ rest) := by
            simp [serV, serNum, hneg, htl]
          have h2 : ∀ X, parseValue (f + 1) (digitChar d :: X) =
              (parseNumber (digitChar d :: X)).map
                (fun p => (JValue.num p.1, p.2)) := by
            interval_cases d <;> exact fun X => rfl
          rw [h1, h2]
          have h3 : digitChar d :: (tl ++ rest) = serNum n ++ rest := by
            simp [serNum, hneg, htl]
          rw [h3, hnum]
          rfl
      | arr a =>
        cases a with
        | nil => rfl
        | cons v t =>
          obtain ⟨c, cs, hsa, hws, hnb⟩ := serArrItems_shape v t
          have hA : needA (JArr.cons v t) ≤ f := by
            simp only [needV] at hle
            omega
          have hIA : parseArrItems f (c :: (cs ++ ']' :: rest)) =
              some (JArr.cons v t, rest) := by
            rw [show c :: (cs ++ ']' :: rest) =
              serArrItems (JArr.cons v t) ++ ']' :: rest from by simp [hsa]]
            exact ihA (JArr.cons v t) rest hA
              (by simpa [keysOkV] using hkeys) (by simp)
          have h1 : serV (JValue.arr (JArr.cons v t)) ++ rest =
              '[' :: (c :: (cs ++ ']' :: rest)) := by
            simp [serV, hsa]
          rw [h1]
          simp only [parseValue]
          simp [skipWs_cons_nws '[' _ (by decide), skipWs_cons_nws c _ hws,
            hnb, hIA]
      | obj o =>
        cases o with
        | nil => rfl
        | cons k v t =>
          obtain ⟨cs, hso⟩ := serObjItems_shape k v t
          have hOk : keysOkO (JObj.cons k v t) = true := by
            simpa [keysOkV] using hkeys
          have hO : needO (JObj.cons k v t) ≤ f := by
            simp only [needV] at hle
            omega
          have hIO : parseObjItems f ('"' :: (cs ++ '\x7d' :: rest)) =
              some (JObj.cons k v t, rest) := by
            rw [show '"' :: (cs ++ '\x7d' :: rest) =
              serObjItems (JObj.cons k v t) ++ '\x7d' :: rest from by simp [hso]]
            exact ihO (JObj.cons k v t) rest hO hOk (by simp)
          have h1 : serV (JValue.obj (JObj.cons k v t)) ++ rest =
              '\x7b' :: ('"' :: (cs ++ '\x7d' :: rest)) := by
            simp [serV, hso]
          rw [h1]
          simp only [parseValue]
          simp [skipWs_cons_nws '\x7b' _ (by decide),
            skipWs_cons_nws '"' _ (by decide), hIO, dedupObj_self _ hOk]
    · intro a rest hle hkeys hne
      cases a with
      | nil => exact absurd rfl hne
      | cons v t =>
        have hk := hkeys
        simp only [keysOkA, Bool.and_eq_true] at hk
        have hV : needV v ≤ f := by
          simp only [needA] at hle
          omega
        cases t with
        | nil =>
          have h1 : serArrItems (JArr.cons v JArr.nil) ++ ']' :: rest =
              serV v ++ ']' :: rest := by
            simp [serArrItems]
          rw [h1]
          have hpv := ihV v (']' :: rest) hV hk.1 (by
            intro c hc
            simp only [List.head?_cons, Option.some.injEq] at hc
            subst hc
            exact ⟨by decide, by decide, by decide, by decide⟩)
          simp only [parseArrItems]
          rw [hpv]
          simp [skipWs_cons_nws ']' rest (by decide)]
        | cons w u =>
          have hA' : needA (JArr.cons w u) ≤ f := by
            simp only [needA] at hle ⊢
            omega
          have h1 : serArrItems (JArr.cons v (JArr.cons w u)) ++ ']' :: rest =
              serV v ++ ',' :: (serArrItems (JArr.cons w u) ++ ']' :: rest) := by
            simp [serArrItems]
          rw [h1]
          have hpv := ihV v
            (',' :: (serArrItems (JArr.cons w u) ++ ']' :: rest)) hV hk.1 (by
            intro c hc
            simp only [List.head?_cons, Option.some.injEq] at hc
            subst hc
            exact ⟨by decide, by decide, by decide, by decide⟩)
          simp only [parseArrItems]
          rw [hpv]
          simp [skipWs_cons_nws ',' _ (by decide),
            ihA (JArr.cons w u) rest hA' hk.2 (by simp)]
    · intro o rest hle hkeys hne
      cases o with
      | nil => exact absurd rfl hne
      | cons k v t =>
        have hk := hkeys
        simp only [keysOkO, Bool.and_eq_true] at hk
        have hV : needV v ≤ f := by
          simp only [needO] at hle
          omega
        cases t with
        | nil =>
          have h1 : serObjItems (JObj.cons k v JObj.nil) ++ '\x7d' :: rest =
              '"' :: (escString k ++ '"' :: (':' :: (serV v ++ '\x7d' :: rest))) := by
            simp [serObjItems]
          rw [h1]
          have hps := parseStr_escString k (':' :: (serV v ++ '\x7d' :: rest))
          have hpv := ihV v ('\x7d' :: rest) hV hk.1.2 (by
            intro c hc
            simp only [List.head?_cons, Option.some.injEq] at hc
            subst hc
            exact ⟨by decide, by decide, by decide, by decide⟩)
          simp only [parseObjItems]
          rw [skipWs_cons_nws '"' _ (by decide)]
          simp [hps, skipWs_cons_nws ':' _ (by decide), hpv,
            skipWs_cons_nws '\x7d' _ (by decide)]
        | cons k2 v2 u =>
          have hO' : needO (JObj.cons k2 v2 u) ≤ f := by
            simp only [needO] at hle ⊢
            omega
          have h1 : serObjItems (JObj.cons k v (JObj.cons k2 v2 u)) ++ '\x7d' :: rest =
              '"' :: (escString k ++ '"' :: (':' :: (serV v ++
                ',' :: (serObjItems (JObj.cons k2 v2 u) ++ '\x7d' :: rest)))) := by
            simp [serObjItems]
          rw [h1]
          have hps := parseStr_escString k
            (':' :: (serV v ++ ',' :: (serObjItems (JObj.cons k2 v2 u) ++ '\x7d' :: rest)))
          have hpv := ihV v
            (',' :: (serObjItems (JObj.cons k2 v2 u) ++ '\x7d' :: rest)) hV hk.1.2 (by
            intro c hc
            simp only [List.head?_cons, Option.some.injEq] at hc
            subst hc
            exact ⟨by decide, by decide, by decide, by decide⟩)
          simp only [parseObjItems]
          rw [skipWs_cons_nws '"' _ (by decide)]
          simp [hps, skipWs_cons_nws ':' _ (by decide), hpv,
            skipWs_cons_nws ',' _ (by decide),
            ihO (JObj.cons k2 v2 u) rest hO' hk.2 (by simp)]

/-- Parsing undoes compact serialization of duplicate-key-free
values (serde's map insertion never produces a duplicate key, so these
are exactly the values the program can hold). -/
theorem parseJson_serV (v : JValue) (hkeys : keysOkV v = true) :
    parseJson (serV v) = some v := by
  have h := (parse_ser_roundtrip ((serV v).length + 1)).1 v []
    (le_trans (needV_le v) (by omega)) hkeys
    (by intro c hc; simp at hc)
  rw [List.append_nil] at h
  unfold parseJson
  rw [h]
  rfl

theorem natDigitsAux_last : ∀ fuel n : Nat, n < fuel →
    ∃ d, d < 10 ∧ (natDigitsAux fuel n).getLast? = some (digitChar d) := by
  intro fuel
  induction fuel with
  | zero => intro n h; omega
  | succ f ih =>
    intro n h
    by_cases h10 : n < 10
    · exact ⟨n, h10, by simp [natDigitsAux, if_pos h10]⟩
    · simp only [natDigitsAux, if_neg h10]
      exact ⟨n % 10, by omega, by simp [List.getLast?_concat]⟩

/-- The compact serialization of any value ends with a character that
is not Rust whitespace. -/
theorem serV_getLast (v : JValue) :
    ∃ c, (serV v).getLast? = some c ∧ isRustWs c = false := by
  cases v with
  | null => exact ⟨'l', rfl, by decide⟩
  | bool b =>
    cases b with
    | true => exact ⟨'e', rfl, by decide⟩
    | false => exact ⟨'e', rfl, by decide⟩
  | num n =>
    by_cases hneg : n < 0
    · obtain ⟨d, hd, hlast⟩ := natDigitsAux_last (n.natAbs + 1) n.natAbs (by omega)
      obtain ⟨_, _, _, _, d0, tl, hd0, htl⟩ := natDigits_spec n.natAbs
      refine ⟨digitChar d, ?_, (digitChar_not_special d hd).1⟩
      have hcons : serV (JValue.num n) = '-' :: natDigits n.natAbs := by
        simp [serV, serNum, hneg]
      rw [hcons, htl, List.getLast?_cons_cons, ← htl]
      exact hlast
    · obtain ⟨d, hd, hlast⟩ := natDigitsAux_last (n.toNat + 1) n.toNat (by omega)
      refine ⟨digitChar d, ?_, (digitChar_not_special d hd).1⟩
      have hcons : serV (JValue.num n) = natDigits n.toNat := by
        simp [serV, serNum, hneg]
      rw [hcons]
      exact hlast
  | str s =>
    refine ⟨'"', ?_, by decide⟩
    have h : serV (JValue.str s) = ('"' :: escString s) ++ ['"'] := by
      simp [serV]
    rw [h, List.getLast?_concat]
  | arr a =>
    refine ⟨']', ?_, by decide⟩
    have h : serV (JValue.arr a) = ('[' :: serArrItems a) ++ [']'] := by
      simp [serV]
    rw [h, List.getLast?_concat]
  | obj o =>
    refine ⟨'\x7d', ?_, by decide⟩
    have h : serV (JValue.obj o) = ('\x7b' :: serObjItems o) ++ ['\x7d'] := by
      simp [serV]
    rw [h, List.getLast?_concat]

/-- `str::trim` does not touch a compact serialization: it neither
starts nor ends with whitespace. -/
theorem trimBoth_serV (v : JValue) : trimBoth (serV v) = serV v := by
  obtain ⟨c, cs, hv, _, hrws, _, _⟩ := serV_shape v
  obtain ⟨e, hlast, hews⟩ := serV_getLast v
  unfold trimBoth rtrim
  rw [dropWhile_head_false isRustWs (serV v) (by
    intro x hx
    rw [hv] at hx
    simp only [List.head?_cons, Option.some.injEq] at hx
    rw [← hx]
    exact hrws)]
  rw [dropWhile_head_false isRustWs (serV v).reverse (by
    intro x hx
    rw [List.head?_reverse, hlast, Option.some.injEq] at hx
    rw [← hx]
    exact hews)]
  exact List.reverse_reverse _

/-- **C4 (amended).** For every parseable input on which no fix rule
applies, `fix_line` returns `Unchanged`; the bytes it carries are the
compact re-serialization of the parsed value, so they are
byte-identical to the input exactly when the input is already in
compact serialized form.  Stated for such inputs: if `v` has no
duplicate object keys anywhere (serde's parse collapses duplicates,
last value wins, so compact serializations of other values are
rewritten) and the fix pass leaves `v` untouched recording no fixes,
then `fix_line` on the compact serialization of `v` returns
`Unchanged` with exactly those input bytes. -/
theorem c4_clean_input_reserialized (v : JValue)
    (hkeys : keysOkV v = true)
    (hfix : fixValue v [] = (v, [])) :
    fix_line (serV v) = FixResult.Unchanged (serV v) := by
  obtain ⟨c, cs, hv, _, _, _, _⟩ := serV_shape v
  simp only [fix_line]
  rw [trimBoth_serV]
  rw [if_neg (by rw [hv]; simp)]
  rw [parseJson_serV v hkeys]
  simp [hfix]

theorem c4_clean_input_reserialized_witness :
    keysOkV (JValue.obj (JObj.cons ['a'] (JValue.num 1) JObj.nil)) = true ∧
    fixValue (JValue.obj (JObj.cons ['a'] (JValue.num 1) JObj.nil)) [] =
      (JValue.obj (JObj.cons ['a'] (JValue.num 1) JObj.nil), []) ∧
    fix_line (serV (JValue.obj (JObj.cons ['a'] (JValue.num 1) JObj.nil))) =
      FixResult.Unchanged
        (serV (JValue.obj (JObj.cons ['a'] (JValue.num 1) JObj.nil))) :=
  ⟨by decide, by decide, c4_clean_input_reserialized _ (by decide) (by decide)⟩
